import Mathlib

/-!
Verification of the DXF retention sweeper (`src/bin/remove_dxf.rs`).

The program walks a root directory tree with the glob `**/Fab/**/DXF`
(filtered by `filter_dxf_folders`, which prunes recently modified
directories), and for each matched `DXF` directory walks it with the
glob `*.dxf`, removing each matched file together with its `.log`
sibling (`remove_file`), counting a deletion only when both removals
succeed.

The filesystem is modelled as a finite tree of named nodes.  Directory
modification times are `Option Nat` (absolute seconds); `none` models a
failing metadata / modified-time read.  Machine durations are plain
naturals (seconds), matching `Duration::from_secs(60 * 24 * 60 * 60)`.
-/

namespace RemoveDxf

/-- A filesystem node: a file, or a directory with a (possibly
unreadable) modification time and a list of children. -/
inductive FsNode where
  | file : String → FsNode
  | dir : String → Option Nat → List FsNode → FsNode

def FsNode.name : FsNode → String
  | .file n => n
  | .dir n _ _ => n

/-- The retention constant `SIXTY_DAYS` from the source:
`Duration::from_secs(60 * 24 * 60 * 60)`. -/
def SIXTY_DAYS : Nat := 60 * 24 * 60 * 60

/-- The prune test of `filter_dxf_folders` on a directory's modification
time: `metadata?.modified()?.elapsed()? < SIXTY_DAYS`, with every error
(`ok()?`) collapsing to "no signal".  A `none` time models a failing
metadata or modified-time read; a time later than `now` makes
`SystemTime::elapsed` fail.  Only a successfully computed elapsed age
strictly below sixty days yields a prune signal. -/
def freshSignal (now : Nat) : Option Nat → Bool
  | none => false
  | some m => decide (m ≤ now) && decide (now - m < SIXTY_DAYS)

/-- Whether the last path segment is the literal `DXF`. -/
def lastIsDxf : List String → Bool
  | [] => false
  | [a] => a == "DXF"
  | _ :: rest => lastIsDxf rest

/-- The glob `**/Fab/**/DXF` from `main`, on the path segments relative
to the walk root: some segment is the literal `Fab`, and the final
segment (strictly after it) is the literal `DXF`.  The leading `**`
admits any prefix, the middle `**` admits zero or more segments between
`Fab` and the final `DXF`; the glob must match the whole relative path,
so `DXF` is its last segment. -/
def fabDxfMatch : List String → Bool
  | [] => false
  | a :: rest => (a == "Fab" && lastIsDxf rest) || fabDxfMatch rest

/-- Name matching for the inner glob `*.dxf` (`DXF_FILES`): `*` matches
any run of characters other than a path separator, so the glob matches
exactly the entry names ending in `.dxf`. -/
def endsDxf (n : String) : Bool :=
  match n.data.reverse with
  | 'f' :: 'x' :: 'd' :: '.' :: _ => true
  | _ => false

/-- First child with the given name, as directory lookup resolves it. -/
def findChild : List FsNode → String → Option FsNode
  | [], _ => none
  | c :: cs, a => if c.name = a then some c else findChild cs a

mutual

/-- Modelled from the spec: the outer traversal
`Glob::new("**/Fab/**/DXF")?.walk(ROOT_DIR).filter_tree(filter_dxf_folders)`.
The `wax` walk itself is not part of this repository; per the spec's
traversal contract, the prune predicate is evaluated for every entry
visited during descent: a non-directory entry is discarded from the
match set (`FilterTarget::File`), a directory whose modification time
reads as younger than sixty days has its entire subtree skipped
(`FilterTarget::Tree`), and every other directory is descended into and
is emitted iff its relative path matches the glob.  Returns the visited
entry paths and the matched `(path, directory node)` pairs, in walk
order. -/
def walkNode (now : Nat) (pref : List String) : FsNode → List (List String) × List (List String × FsNode)
  | .file n => ([pref ++ [n]], [])
  | .dir n mt cs =>
      let p := pref ++ [n]
      if freshSignal now mt then ([p], [])
      else
        let rest := walkChildren now p cs
        (p :: rest.1, (if fabDxfMatch p then [(p, .dir n mt cs)] else []) ++ rest.2)

/-- Modelled from the spec: the traversal over a list of sibling
entries, in order. -/
def walkChildren (now : Nat) (pref : List String) : List FsNode → List (List String) × List (List String × FsNode)
  | [] => ([], [])
  | c :: cs =>
      let r₁ := walkNode now pref c
      let r₂ := walkChildren now pref cs
      (r₁.1 ++ r₂.1, r₁.2 ++ r₂.2)

end

/-- Modelled from the spec: the whole outer walk, rooted at `ROOT_DIR`.
The root itself is not an entry of its own walk; paths are relative to
it. -/
def rootWalk (now : Nat) (t : FsNode) : List (List String) × List (List String × FsNode) :=
  match t with
  | .file _ => ([], [])
  | .dir _ _ cs => walkChildren now [] cs

def visitedPaths (now : Nat) (t : FsNode) : List (List String) :=
  (rootWalk now t).1

def matchedPairs (now : Nat) (t : FsNode) : List (List String × FsNode) :=
  (rootWalk now t).2

def matchedPaths (now : Nat) (t : FsNode) : List (List String) :=
  (matchedPairs now t).map Prod.fst

/-- Names among a child list matched by the inner glob `*.dxf`
(`DXF_FILES.get().unwrap().walk(path)` matches the immediate children
whose name ends in `.dxf`; a single `*` does not cross a path
separator, so deeper entries never match). -/
def dxfNames : List FsNode → List String
  | [] => []
  | c :: cs => if endsDxf c.name then c.name :: dxfNames cs else dxfNames cs

def addParent (p : List String) : List String → List (List String)
  | [] => []
  | n :: ns => (p ++ [n]) :: addParent p ns

/-- Deletion candidates contributed by one matched `DXF` directory:
the paths of its immediate children matched by `*.dxf`. -/
def dirCandidates (p : List String) : FsNode → List (List String)
  | .file _ => []
  | .dir _ _ cs => addParent p (dxfNames cs)

def candList : List (List String × FsNode) → List (List String)
  | [] => []
  | pd :: rest => dirCandidates pd.1 pd.2 ++ candList rest

/-- All deletion candidates of one run, in walk order (`remove_files`
applied to each matched directory). -/
def sweepCandidates (now : Nat) (t : FsNode) : List (List String) :=
  candList (matchedPairs now t)

/-- Rust `Path::with_extension("log")` on an entry name: the extension
(the part after the last dot, provided the part before it is nonempty)
is replaced by `log`; a name without an extension gets `.log`
appended.  Implemented on the reversed character list: `extSplitRev`
drops characters up to the last dot and returns the reversed stem. -/
def extSplitRev : List Char → Option (List Char)
  | [] => none
  | '.' :: rest => if rest.isEmpty then none else some rest
  | _ :: rest => extSplitRev rest

def withExtLog (n : String) : String :=
  match extSplitRev n.data.reverse with
  | some stemRev => ⟨stemRev.reverse⟩ ++ ".log"
  | none => n ++ ".log"

/-- The path of the paired `.log` file: the last segment with its
extension replaced (`path.with_extension("log")`). -/
def logSibling : List String → List String
  | [] => []
  | [a] => [withExtLog a]
  | a :: rest => a :: logSibling rest

def eraseChild : List FsNode → String → List FsNode
  | [], _ => []
  | c :: cs, a => if c.name = a then cs else c :: eraseChild cs a

def replaceChild : List FsNode → String → FsNode → List FsNode
  | [], _, _ => []
  | c :: cs, a, c' => if c.name = a then c' :: cs else c :: replaceChild cs a c'

/-- Translation of `fs::remove_file` on a path below the given node: it succeeds iff
the path resolves to a file (removing a directory, or a missing entry,
fails), and deletes exactly that file. -/
def removeFileAt : List String → FsNode → Option FsNode
  | _, .file _ => none
  | [], .dir _ _ _ => none
  | a :: rest, .dir n mt cs =>
      match findChild cs a, rest with
      | none, _ => none
      | some c, [] =>
          match c with
          | .file _ => some (.dir n mt (eraseChild cs a))
          | .dir _ _ _ => none
      | some c, _ :: _ => (removeFileAt rest c).map (fun c' => .dir n mt (replaceChild cs a c'))

/-- Outcome of `remove_file` on one candidate: the new state, whether
the pair was counted, the successfully removed paths and the attempted
removals, in order. -/
structure PairOut where
  state : FsNode
  counted : Bool
  removed : List (List String)
  attempted : List (List String)

/-- Translation of `remove_file`: remove the `.dxf` path; on failure
(`?`) stop without touching the `.log` sibling; otherwise also remove
the sibling, and report success only if both removals succeeded. -/
def removeFilePair (s : FsNode) (p : List String) : PairOut :=
  match removeFileAt p s with
  | none => ⟨s, false, [], [p]⟩
  | some s₁ =>
      match removeFileAt (logSibling p) s₁ with
      | none => ⟨s₁, false, [p], [p, logSibling p]⟩
      | some s₂ => ⟨s₂, true, [p, logSibling p], [p, logSibling p]⟩

/-- Aggregate outcome of a run: final state, the reported count
(`.sum` of `is_ok` flags), removed and attempted paths in order. -/
structure SweepOut where
  state : FsNode
  count : Nat
  removed : List (List String)
  attempted : List (List String)

def runDeletions : FsNode → List (List String) → SweepOut
  | s, [] => ⟨s, 0, [], []⟩
  | s, p :: ps =>
      let r := removeFilePair s p
      let rest := runDeletions r.state ps
      ⟨rest.state, (if r.counted then 1 else 0) + rest.count,
        r.removed ++ rest.removed, r.attempted ++ rest.attempted⟩

/-- One full run of the sweeper over a tree: walk, then process every
candidate in order.  Deletions only ever remove files that the walk has
already matched, and never touch the children of a directory matched
later, so processing the candidates after the walk is observationally
the same as the lazy interleaving of the iterator chain in `main`. -/
def sweep (now : Nat) (t : FsNode) : SweepOut :=
  runDeletions t (sweepCandidates now t)

/-- Resolve a path below a node, committing to the first child of each
requested name, as directory lookup does. -/
def nodeAt : List String → FsNode → Option FsNode
  | [], c => some c
  | _ :: _, .file _ => none
  | a :: rest, .dir _ _ cs =>
      match findChild cs a with
      | some c => nodeAt rest c
      | none => none

/-- Observable metadata of a node: file, or directory with its
modification time. -/
inductive FsStat where
  | fileStat : FsStat
  | dirStat : Option Nat → FsStat
  deriving DecidableEq

def statOf : FsNode → FsStat
  | .file _ => .fileStat
  | .dir _ mt _ => .dirStat mt

def statAt (p : List String) (t : FsNode) : Option FsStat :=
  (nodeAt p t).map statOf

def nameNotIn : String → List FsNode → Bool
  | _, [] => true
  | a, c :: cs => (!(c.name == a)) && nameNotIn a cs

def namesNodup : List FsNode → Bool
  | [] => true
  | c :: cs => nameNotIn c.name cs && namesNodup cs

mutual

/-- Well-formedness of a filesystem tree: sibling names are distinct,
as they are on a real filesystem. -/
def wfNode : FsNode → Bool
  | .file _ => true
  | .dir _ _ cs => namesNodup cs && wfList cs

def wfList : List FsNode → Bool
  | [] => true
  | c :: cs => wfNode c && wfList cs

end

mutual

/-- Number of files in the whole tree whose name matches `*.dxf`. -/
def dxfFileCount : FsNode → Nat
  | .file n => if endsDxf n then 1 else 0
  | .dir _ _ cs => dxfCountAll cs

def dxfCountAll : List FsNode → Nat
  | [] => 0
  | c :: cs => dxfFileCount c + dxfCountAll cs

end

/-- Path-logic counterpart of the walk's visiting decision: the entry
one step below the current node named by the head segment is visited
unconditionally; deeper entries are visited iff every directory on the
way is descended into (no prune signal). -/
def visitRel (now : Nat) : List String → FsNode → Bool
  | [], _ => true
  | _ :: _, .file _ => false
  | a :: rest, .dir _ mt cs =>
      !freshSignal now mt &&
        (match findChild cs a with
         | some c => visitRel now rest c
         | none => false)

/-- Path-logic counterpart of the walk's matching decision below a
node: the endpoint must be a directory that is itself descended-into
material (no prune signal at it or at any directory on the way). -/
def matchOk (now : Nat) : List String → FsNode → Bool
  | [], .file _ => false
  | [], .dir _ mt _ => !freshSignal now mt
  | _ :: _, .file _ => false
  | a :: rest, .dir _ mt cs =>
      !freshSignal now mt &&
        (match findChild cs a with
         | some c => matchOk now rest c
         | none => false)

/-- Path `q` is at or below `p`. -/
def IsUnder (p q : List String) : Prop := ∃ c, q = p ++ c

/-- Prune signal at a path below a node: the path resolves to a
directory whose modification time reads as younger than sixty days. -/
def isFreshAt (now : Nat) (r : List String) (t : FsNode) : Bool :=
  match nodeAt r t with
  | some (.dir _ mt _) => freshSignal now mt
  | _ => false

/-- Last path segment. -/
def lastSeg : List String → Option String
  | [] => none
  | [a] => some a
  | _ :: r => lastSeg r

/-! Concrete trees for counterexamples and witnesses. -/

/-- Modelled from the spec: the wording of claim C6 — the path's
segment sequence contains a `Fab` segment followed later, at any
positive distance, by a `DXF` segment (anywhere, not necessarily
last). -/
def specFabThenDxf : List String → Bool
  | [] => false
  | a :: rest => (a == "Fab" && rest.contains ("DXF")) || specFabThenDxf rest

def T6 : FsNode :=
  .dir ("Jobs") (some 0)
    [ .dir ("Fab") (some 0) [ .dir ("DXF") (some 0) [ .dir ("sub") (some 0) [] ] ] ]

def T2 : FsNode :=
  .dir ("Jobs") (some 0)
    [ .dir ("Fab") (some 0)
        [ .dir ("DXF") (some 0)
            [ .dir ("sub") (some 0) [ .file ("a.dxf"), .file ("a.log") ] ] ] ]

def T2b : FsNode :=
  .dir ("Jobs") (some 0)
    [ .dir ("Fab") (some 0) [ .dir ("DXF") (some 0) [ .file ("b.dxf"), .file ("b.log") ] ] ]

def T3 : FsNode :=
  .dir ("Jobs") (some 0)
    [ .dir ("JobA") (some 6999000)
        [ .dir ("Fab") (some 0)
            [ .dir ("DXF") (some 0) [ .file ("a.dxf"), .file ("a.log") ] ] ] ]

def T5 : FsNode := .dir ("Jobs") (some 0) [ .file ("n.dxf") ]

def T7 : FsNode :=
  .dir ("Jobs") (some 0)
    [ .dir ("Fab") (some 0) [ .dir ("DXF") none [ .file ("b.dxf") ] ] ]

def T10 : FsNode :=
  .dir ("Jobs") (some 0)
    [ .dir ("Fab") (some 0) [ .dir ("DXF") (some 8000000) [ .file ("c.dxf") ] ] ]

def Tex : FsNode :=
  .dir ("Jobs") (some 0)
    [ .dir ("JobA") (some 0)
        [ .dir ("Fab") (some 0)
            [ .dir ("DXF") (some 0) [ .file ("p1.dxf"), .file ("p1.log") ] ] ] ]

/-! Basic lemmas about child lookup and path resolution. -/

theorem findChild_name : ∀ {cs : List FsNode} {a : String} {c : FsNode},
    findChild cs a = some c → c.name = a := by
  intro cs a c h
  induction cs with
  | nil => simp [findChild] at h
  | cons c₀ cs ih =>
    simp only [findChild] at h
    split at h
    · cases h; assumption
    · exact ih h

theorem findChild_mem : ∀ {cs : List FsNode} {a : String} {c : FsNode},
    findChild cs a = some c → c ∈ cs := by
  intro cs a c h
  induction cs with
  | nil => simp [findChild] at h
  | cons c₀ cs ih =>
    simp only [findChild] at h
    split at h
    · cases h; exact List.mem_cons_self _ _
    · exact List.mem_cons_of_mem _ (ih h)

theorem findChild_isSome_of_mem : ∀ {cs : List FsNode} {c : FsNode},
    c ∈ cs → ∃ c', findChild cs (c.name) = some c' := by
  intro cs c h
  induction cs with
  | nil => cases h
  | cons c₀ cs ih =>
    by_cases hn : c₀.name = c.name
    · exact ⟨c₀, by simp [findChild, hn]⟩
    · rcases List.mem_cons.mp h with rfl | hmem
      · exact absurd rfl hn
      · rcases ih hmem with ⟨c', hc'⟩
        exact ⟨c', by simp [findChild, hn, hc']⟩

theorem nameNotIn_spec : ∀ {cs : List FsNode} {a : String} {c : FsNode},
    nameNotIn a cs = true → c ∈ cs → ¬ c.name = a := by
  intro cs a c h hm
  induction cs with
  | nil => cases hm
  | cons c₀ cs ih =>
    simp only [nameNotIn, Bool.and_eq_true, Bool.not_eq_true', beq_eq_false_iff_ne] at h
    rcases List.mem_cons.mp hm with rfl | hmem
    · exact h.1
    · exact ih h.2 hmem

theorem findChild_eq_none_of_nameNotIn : ∀ {cs : List FsNode} {a : String},
    nameNotIn a cs = true → findChild cs a = none := by
  intro cs a h
  induction cs with
  | nil => rfl
  | cons c₀ cs ih =>
    simp only [nameNotIn, Bool.and_eq_true, Bool.not_eq_true', beq_eq_false_iff_ne] at h
    simp [findChild, h.1, ih h.2]

theorem nodeAt_append (d : List String) : ∀ (r : List String) (t : FsNode),
    nodeAt (d ++ r) t = (nodeAt d t).bind (fun c => nodeAt r c) := by
  induction d with
  | nil => intro r t; simp [nodeAt]
  | cons a d ih =>
    intro r t
    cases t with
    | file n => simp [nodeAt]
    | dir n mt cs =>
      simp only [List.cons_append, nodeAt]
      cases findChild cs a with
      | none => simp
      | some c => simpa using ih r c

theorem wfList_mem : ∀ {cs : List FsNode} {c : FsNode},
    wfList cs = true → c ∈ cs → wfNode c = true := by
  intro cs c h hm
  induction cs with
  | nil => cases hm
  | cons c₀ cs ih =>
    simp only [wfList, Bool.and_eq_true] at h
    rcases List.mem_cons.mp hm with rfl | hmem
    · exact h.1
    · exact ih h.2 hmem

/-! Shape of the paths produced by the walk: every entry emitted while
walking a node lies strictly below the node's parent. -/

mutual

theorem vis_shape_node : ∀ (now : Nat) (pref : List String) (c : FsNode)
    (q : List String), q ∈ (walkNode now pref c).1 → ∃ s, q = pref ++ c.name :: s
  | now, pref, .file n, q, hq => by
    simp only [walkNode, List.mem_singleton] at hq
    exact ⟨[], by simpa [FsNode.name] using hq⟩
  | now, pref, .dir n mt cs, q, hq => by
    simp only [walkNode] at hq
    split at hq
    · simp only [List.mem_singleton] at hq
      exact ⟨[], by simpa [FsNode.name] using hq⟩
    · simp only [List.mem_cons] at hq
      rcases hq with rfl | hq
      · exact ⟨[], by simp [FsNode.name]⟩
      · rcases vis_shape_list now (pref ++ [n]) cs q hq with ⟨c', _, s, rfl⟩
        exact ⟨c'.name :: s, by simp [FsNode.name]⟩

theorem vis_shape_list : ∀ (now : Nat) (pref : List String) (cs : List FsNode)
    (q : List String), q ∈ (walkChildren now pref cs).1 →
      ∃ c, c ∈ cs ∧ ∃ s, q = pref ++ c.name :: s
  | now, pref, [], q, hq => by simp [walkChildren] at hq
  | now, pref, c :: cs, q, hq => by
    simp only [walkChildren, List.mem_append] at hq
    rcases hq with hq | hq
    · exact ⟨c, List.mem_cons_self _ _, vis_shape_node now pref c q hq⟩
    · rcases vis_shape_list now pref cs q hq with ⟨c', hc', hs⟩
      exact ⟨c', List.mem_cons_of_mem _ hc', hs⟩

end

mutual

theorem mat_shape_node : ∀ (now : Nat) (pref : List String) (c : FsNode)
    (q : List String) (nd : FsNode), (q, nd) ∈ (walkNode now pref c).2 →
      ∃ s, q = pref ++ c.name :: s
  | now, pref, .file n, q, nd, hq => by simp [walkNode] at hq
  | now, pref, .dir n mt cs, q, nd, hq => by
    simp only [walkNode] at hq
    split at hq
    · simp at hq
    · simp only [List.mem_append] at hq
      rcases hq with hq | hq
      · split at hq
        · simp only [List.mem_singleton, Prod.mk.injEq] at hq
          exact ⟨[], by simp [hq.1, FsNode.name]⟩
        · simp at hq
      · rcases mat_shape_list now (pref ++ [n]) cs q nd hq with ⟨c', _, s, rfl⟩
        exact ⟨c'.name :: s, by simp [FsNode.name]⟩

theorem mat_shape_list : ∀ (now : Nat) (pref : List String) (cs : List FsNode)
    (q : List String) (nd : FsNode), (q, nd) ∈ (walkChildren now pref cs).2 →
      ∃ c, c ∈ cs ∧ ∃ s, q = pref ++ c.name :: s
  | now, pref, [], q, nd, hq => by simp [walkChildren] at hq
  | now, pref, c :: cs, q, nd, hq => by
    simp only [walkChildren, List.mem_append] at hq
    rcases hq with hq | hq
    · exact ⟨c, List.mem_cons_self _ _, mat_shape_node now pref c q nd hq⟩
    · rcases mat_shape_list now pref cs q nd hq with ⟨c', hc', hs⟩
      exact ⟨c', List.mem_cons_of_mem _ hc', hs⟩

end

theorem cons_split_all {α : Type} {P : List α → Prop} (a : α) (s : List α) :
    (∀ r d, a :: s = r ++ d → d ≠ [] → P r) ↔
      (P [] ∧ ∀ r d, s = r ++ d → d ≠ [] → P (a :: r)) := by
  constructor
  · intro h
    refine ⟨h [] (a :: s) rfl (by simp), fun r d hr hd => ?_⟩
    exact h (a :: r) d (by simp [hr]) hd
  · rintro ⟨h0, h⟩ r d hr hd
    cases r with
    | nil => exact h0
    | cons x r' =>
      simp only [List.cons_append, List.cons.injEq] at hr
      rcases hr with ⟨rfl, hr⟩
      exact h r' d hr hd

theorem cons_split_all_ne {α : Type} {P : List α → Prop} (a : α) (s : List α) :
    (∀ r d, a :: s = r ++ d → d ≠ [] → r ≠ [] → P r) ↔
      (∀ r d, s = r ++ d → d ≠ [] → P (a :: r)) := by
  constructor
  · intro h r d hr hd
    exact h (a :: r) d (by simp [hr]) hd (by simp)
  · intro h r d hr hd hne
    cases r with
    | nil => exact absurd rfl hne
    | cons x r' =>
      simp only [List.cons_append, List.cons.injEq] at hr
      rcases hr with ⟨rfl, hr⟩
      exact h r' d hr hd

/-! Membership in the walk's visited entries, characterised by the
path-logic predicate `visitRel`. -/

mutual

theorem vis_mem_node : ∀ (now : Nat) (pref : List String) (c : FsNode) (s : List String),
    wfNode c = true →
    ((pref ++ c.name :: s) ∈ (walkNode now pref c).1 ↔ visitRel now s c = true)
  | now, pref, .file n, s, _ => by
    simp only [walkNode, FsNode.name, List.mem_singleton]
    cases s with
    | nil => simp [visitRel]
    | cons a rest => simp [visitRel]
  | now, pref, .dir n mt cs, s, hwf => by
    simp only [wfNode, Bool.and_eq_true] at hwf
    simp only [walkNode, FsNode.name]
    split
    next hf =>
      cases s with
      | nil => simp [visitRel, hf]
      | cons a rest => simp [visitRel, hf]
    next hf =>
      have hf' : freshSignal now mt = false := by
        cases hh : freshSignal now mt
        · rfl
        · exact absurd hh hf
      cases s with
      | nil => simp [visitRel]
      | cons a rest =>
        simp only [List.mem_cons]
        have hne : pref ++ n :: a :: rest ≠ pref ++ [n] := by simp
        rw [show pref ++ n :: a :: rest = (pref ++ [n]) ++ a :: rest by simp]
        simp only [visitRel, hf', Bool.not_false, Bool.true_and]
        rw [vis_mem_list now (pref ++ [n]) cs a rest hwf.1 hwf.2]
        constructor
        · rintro (h | ⟨c, hc, hv⟩)
          · rw [show (pref ++ [n]) ++ a :: rest = pref ++ n :: a :: rest by simp] at h
            exact absurd h hne
          · simp [hc, hv]
        · intro h
          cases hfc : findChild cs a with
          | none => simp [hfc] at h
          | some c => exact Or.inr ⟨c, rfl, by simpa [hfc] using h⟩

theorem vis_mem_list : ∀ (now : Nat) (pref : List String) (cs : List FsNode)
    (a : String) (s : List String), namesNodup cs = true → wfList cs = true →
    ((pref ++ a :: s) ∈ (walkChildren now pref cs).1 ↔
      ∃ c, findChild cs a = some c ∧ visitRel now s c = true)
  | now, pref, [], a, s, _, _ => by simp [walkChildren, findChild]
  | now, pref, c₀ :: cs, a, s, hnd, hwl => by
    simp only [namesNodup, Bool.and_eq_true] at hnd
    simp only [wfList, Bool.and_eq_true] at hwl
    simp only [walkChildren, List.mem_append]
    by_cases h : c₀.name = a
    · subst h
      simp only [findChild, if_pos rfl]
      rw [vis_mem_node now pref c₀ s hwl.1]
      constructor
      · rintro (hv | hmem)
        · exact ⟨c₀, rfl, hv⟩
        · rcases vis_shape_list now pref cs _ hmem with ⟨c', hc', s', heq⟩
          have : c₀.name = c'.name := by
            have := List.append_cancel_left heq
            exact (List.cons.injEq _ _ _ _).mp this |>.1
          exact absurd this.symm (nameNotIn_spec hnd.1 hc')
      · rintro ⟨c, hc, hv⟩
        cases hc
        exact Or.inl hv
    · simp only [findChild, if_neg h]
      rw [vis_mem_list now pref cs a s hnd.2 hwl.2]
      constructor
      · rintro (hv | hmem)
        · rcases vis_shape_node now pref c₀ _ hv with ⟨s', heq⟩
          have : a = c₀.name := by
            have := List.append_cancel_left heq
            exact (List.cons.injEq _ _ _ _).mp this |>.1
          exact absurd this.symm h
        · exact hmem
      · exact fun hx => Or.inr hx

end

theorem visitRel_iff (now : Nat) : ∀ (s : List String) (c : FsNode),
    visitRel now s c = true ↔
      ((nodeAt s c).isSome = true ∧
        ∀ r d, s = r ++ d → d ≠ [] → isFreshAt now r c = false) := by
  intro s
  induction s with
  | nil =>
    intro c
    constructor
    · intro _
      refine ⟨by simp [nodeAt], ?_⟩
      intro r d hr hd
      exact absurd (List.append_eq_nil.mp hr.symm).2 hd
    · intro _
      simp [visitRel]
  | cons a rest ih =>
    intro c
    cases c with
    | file n =>
      simp only [visitRel, nodeAt]
      constructor
      · intro h; cases h
      · rintro ⟨h, _⟩; simp at h
    | dir n mt cs =>
      simp only [visitRel, nodeAt, Bool.and_eq_true, Bool.not_eq_true']
      rw [cons_split_all (P := fun r => isFreshAt now r (.dir n mt cs) = false)]
      have hfr : isFreshAt now [] (.dir n mt cs) = freshSignal now mt := rfl
      cases hfc : findChild cs a with
      | none =>
        simp only [hfc]
        constructor
        · rintro ⟨_, h⟩; cases h
        · rintro ⟨h, _⟩; simp at h
      | some c =>
        simp only [hfc]
        rw [ih c]
        have hstep : ∀ r, isFreshAt now (a :: r) (.dir n mt cs) = isFreshAt now r c := by
          intro r
          simp [isFreshAt, nodeAt, hfc]
        constructor
        · rintro ⟨hmt, hn, hall⟩
          refine ⟨hn, ⟨by rw [hfr]; exact hmt, fun r d hr hd => ?_⟩⟩
          rw [hstep]; exact hall r d hr hd
        · rintro ⟨hn, h0, hall⟩
          refine ⟨by rw [hfr] at h0; exact h0, hn, fun r d hr hd => ?_⟩
          rw [← hstep]; exact hall r d hr hd

/-! Membership in the walk's match output, characterised by the
path-logic predicate `matchOk` together with the glob. -/

mutual

theorem mat_mem_node : ∀ (now : Nat) (pref : List String) (c : FsNode)
    (s : List String) (nd : FsNode), wfNode c = true →
    ((pref ++ c.name :: s, nd) ∈ (walkNode now pref c).2 ↔
      (fabDxfMatch (pref ++ c.name :: s) = true ∧ matchOk now s c = true ∧
        nodeAt s c = some nd))
  | now, pref, .file n, s, nd, _ => by
    simp only [walkNode, FsNode.name, List.not_mem_nil]
    cases s with
    | nil => simp [matchOk]
    | cons a rest => simp [matchOk]
  | now, pref, .dir n mt cs, s, nd, hwf => by
    simp only [wfNode, Bool.and_eq_true] at hwf
    simp only [walkNode, FsNode.name]
    split
    next hf =>
      cases s with
      | nil => simp [matchOk, hf]
      | cons a rest => simp [matchOk, hf]
    next hf =>
      have hf' : freshSignal now mt = false := by
        cases hh : freshSignal now mt
        · rfl
        · exact absurd hh hf
      cases s with
      | nil =>
        simp only [List.mem_append]
        constructor
        · rintro (hmem | hmem)
          · split at hmem
            · simp only [List.mem_singleton, Prod.mk.injEq] at hmem
              refine ⟨by assumption, ?_, ?_⟩
              · simp [matchOk, hf']
              · simp [nodeAt, hmem.2]
            · simp at hmem
          · rcases mat_shape_list now (pref ++ [n]) cs _ nd hmem with ⟨c', _, s', heq⟩
            exact absurd heq.symm (by simp)
        · rintro ⟨hfab, _, hnd⟩
          simp only [nodeAt, Option.some.injEq] at hnd
          left
          simp [hfab, hnd]
      | cons a rest =>
        simp only [List.mem_append]
        rw [show pref ++ n :: a :: rest = (pref ++ [n]) ++ a :: rest by simp]
        rw [mat_mem_list now (pref ++ [n]) cs a rest nd hwf.1 hwf.2]
        have hleft : ¬ ((pref ++ [n]) ++ a :: rest, nd) ∈
            (if fabDxfMatch (pref ++ [n]) = true
              then [(pref ++ [n], FsNode.dir n mt cs)] else []) := by
          split
          · simp
          · simp
        simp only [matchOk, nodeAt, hf', Bool.not_false, Bool.true_and]
        constructor
        · rintro (hmem | h)
          · exact absurd hmem hleft
          · rcases h with ⟨hfab, c, hfc, hmo, hnd⟩
            exact ⟨hfab, by simp [hfc, hmo], by simp [hfc, hnd]⟩
        · rintro ⟨hfab, hmo, hnd⟩
          cases hfc : findChild cs a with
          | none => simp [hfc] at hmo
          | some c =>
            right
            refine ⟨hfab, c, rfl, ?_, ?_⟩
            · simpa [hfc] using hmo
            · simpa [hfc] using hnd

theorem mat_mem_list : ∀ (now : Nat) (pref : List String) (cs : List FsNode)
    (a : String) (s : List String) (nd : FsNode),
    namesNodup cs = true → wfList cs = true →
    ((pref ++ a :: s, nd) ∈ (walkChildren now pref cs).2 ↔
      (fabDxfMatch (pref ++ a :: s) = true ∧ ∃ c, findChild cs a = some c ∧
        matchOk now s c = true ∧ nodeAt s c = some nd))
  | now, pref, [], a, s, nd, _, _ => by simp [walkChildren, findChild]
  | now, pref, c₀ :: cs, a, s, nd, hnd, hwl => by
    simp only [namesNodup, Bool.and_eq_true] at hnd
    simp only [wfList, Bool.and_eq_true] at hwl
    simp only [walkChildren, List.mem_append]
    by_cases h : c₀.name = a
    · subst h
      simp only [findChild, if_pos rfl]
      rw [mat_mem_node now pref c₀ s nd hwl.1]
      constructor
      · rintro (hv | hmem)
        · exact ⟨hv.1, c₀, rfl, hv.2.1, hv.2.2⟩
        · rcases mat_shape_list now pref cs _ nd hmem with ⟨c', hc', s', heq⟩
          have : c₀.name = c'.name := by
            have := List.append_cancel_left heq
            exact (List.cons.injEq _ _ _ _).mp this |>.1
          exact absurd this.symm (nameNotIn_spec hnd.1 hc')
      · rintro ⟨hfab, c, hc, hmo, hnd'⟩
        cases hc
        exact Or.inl ⟨hfab, hmo, hnd'⟩
    · simp only [findChild, if_neg h]
      rw [mat_mem_list now pref cs a s nd hnd.2 hwl.2]
      constructor
      · rintro (hv | hmem)
        · rcases mat_shape_node now pref c₀ _ nd hv with ⟨s', heq⟩
          have : a = c₀.name := by
            have := List.append_cancel_left heq
            exact (List.cons.injEq _ _ _ _).mp this |>.1
          exact absurd this.symm h
        · exact hmem
      · exact fun hx => Or.inr hx

end

theorem matchOk_iff (now : Nat) : ∀ (s : List String) (c : FsNode),
    matchOk now s c = true ↔
      ((∃ n mtd cs', nodeAt s c = some (.dir n mtd cs') ∧ freshSignal now mtd = false) ∧
        ∀ r d, s = r ++ d → d ≠ [] → isFreshAt now r c = false) := by
  intro s
  induction s with
  | nil =>
    intro c
    cases c with
    | file n =>
      simp only [matchOk, nodeAt]
      constructor
      · intro h; cases h
      · rintro ⟨⟨n', mtd, cs', hh, _⟩, _⟩; cases hh
    | dir n mt cs =>
      simp only [matchOk, nodeAt, Bool.not_eq_true']
      constructor
      · intro h
        refine ⟨⟨n, mt, cs, rfl, h⟩, ?_⟩
        intro r d hr hd
        exact absurd (List.append_eq_nil.mp hr.symm).2 hd
      · rintro ⟨⟨n', mtd, cs', hh, hfr⟩, _⟩
        simp only [Option.some.injEq, FsNode.dir.injEq] at hh
        rw [hh.2.1]
        exact hfr
  | cons a rest ih =>
    intro c
    cases c with
    | file n =>
      simp only [matchOk, nodeAt]
      constructor
      · intro h; cases h
      · rintro ⟨⟨n', mtd, cs', hh, _⟩, _⟩; cases hh
    | dir n mt cs =>
      simp only [matchOk, nodeAt, Bool.and_eq_true, Bool.not_eq_true']
      rw [cons_split_all (P := fun r => isFreshAt now r (.dir n mt cs) = false)]
      have hfr : isFreshAt now [] (.dir n mt cs) = freshSignal now mt := rfl
      cases hfc : findChild cs a with
      | none =>
        simp only [hfc]
        constructor
        · rintro ⟨_, h⟩; cases h
        · rintro ⟨⟨n', mtd, cs', hh, _⟩, _⟩; cases hh
      | some c =>
        simp only [hfc]
        rw [ih c]
        have hstep : ∀ r, isFreshAt now (a :: r) (.dir n mt cs) = isFreshAt now r c := by
          intro r
          simp [isFreshAt, nodeAt, hfc]
        constructor
        · rintro ⟨hmt, hend, hall⟩
          refine ⟨hend, ⟨by rw [hfr]; exact hmt, fun r d hr hd => ?_⟩⟩
          rw [hstep]; exact hall r d hr hd
        · rintro ⟨hend, h0, hall⟩
          refine ⟨by rw [hfr] at h0; exact h0, hend, fun r d hr hd => ?_⟩
          rw [← hstep]; exact hall r d hr hd

/-- Top-level characterisation of the visited entries of one walk:
exactly the existing paths strictly below the root all of whose proper,
nonempty ancestors carry no prune signal. -/
theorem vis_top_iff (now : Nat) (t : FsNode) (q : List String) (hwf : wfNode t = true) :
    q ∈ visitedPaths now t ↔
      (q ≠ [] ∧ (nodeAt q t).isSome = true ∧
        ∀ r d, q = r ++ d → d ≠ [] → r ≠ [] → isFreshAt now r t = false) := by
  cases t with
  | file n =>
    cases q with
    | nil => simp [visitedPaths, rootWalk]
    | cons a s => simp [visitedPaths, rootWalk, nodeAt]
  | dir rn rmt cs =>
    simp only [wfNode, Bool.and_eq_true] at hwf
    cases q with
    | nil =>
      simp only [ne_eq, not_true_eq_false, false_and, iff_false]
      intro hmem
      rcases vis_shape_list now [] cs [] hmem with ⟨c', _, s', heq⟩
      simp at heq
    | cons a s =>
      rw [show (a :: s : List String) = [] ++ a :: s from rfl]
      rw [visitedPaths, rootWalk]
      rw [vis_mem_list now [] cs a s hwf.1 hwf.2]
      simp only [List.nil_append, ne_eq, reduceCtorEq, not_false_eq_true, true_and]
      rw [cons_split_all_ne (P := fun r => isFreshAt now r (.dir rn rmt cs) = false)]
      have hstep : ∀ r, isFreshAt now (a :: r) (.dir rn rmt cs) =
          (match findChild cs a with
            | some c => isFreshAt now r c
            | none => false) := by
        intro r
        cases hfc : findChild cs a <;> simp [isFreshAt, nodeAt, hfc]
      cases hfc : findChild cs a with
      | none =>
        simp only [nodeAt, hfc]
        constructor
        · rintro ⟨c, hc, _⟩; cases hc
        · rintro ⟨h, _⟩; cases h
      | some c =>
        simp only [nodeAt, hfc]
        constructor
        · rintro ⟨c', hc', hv⟩
          cases hc'
          rw [visitRel_iff] at hv
          refine ⟨hv.1, fun r d hr hd => ?_⟩
          rw [hstep r, hfc]
          exact hv.2 r d hr hd
        · rintro ⟨hn, hall⟩
          refine ⟨c, rfl, ?_⟩
          rw [visitRel_iff]
          refine ⟨hn, fun r d hr hd => ?_⟩
          have := hall r d hr hd
          rw [hstep r, hfc] at this
          exact this

/-- Top-level characterisation of the matched pairs of one walk: the
matched paths are exactly the glob-matching directory paths that carry
no prune signal themselves and none on any proper nonempty ancestor,
and each is paired with the directory node it resolves to. -/
theorem matched_pair_top_iff (now : Nat) (t : FsNode) (q : List String) (nd : FsNode)
    (hwf : wfNode t = true) :
    (q, nd) ∈ matchedPairs now t ↔
      (q ≠ [] ∧ fabDxfMatch q = true ∧ nodeAt q t = some nd ∧
        (∃ n mtd cs', nd = .dir n mtd cs' ∧ freshSignal now mtd = false) ∧
        ∀ r d, q = r ++ d → d ≠ [] → r ≠ [] → isFreshAt now r t = false) := by
  cases t with
  | file n =>
    cases q with
    | nil => simp [matchedPairs, rootWalk]
    | cons a s => simp [matchedPairs, rootWalk, nodeAt]
  | dir rn rmt cs =>
    simp only [wfNode, Bool.and_eq_true] at hwf
    cases q with
    | nil =>
      simp only [ne_eq, not_true_eq_false, false_and, iff_false]
      intro hmem
      rcases mat_shape_list now [] cs [] nd hmem with ⟨c', _, s', heq⟩
      simp at heq
    | cons a s =>
      rw [show (a :: s : List String) = [] ++ a :: s from rfl]
      rw [matchedPairs, rootWalk]
      rw [mat_mem_list now [] cs a s nd hwf.1 hwf.2]
      simp only [List.nil_append, ne_eq, reduceCtorEq, not_false_eq_true, true_and]
      rw [cons_split_all_ne (P := fun r => isFreshAt now r (.dir rn rmt cs) = false)]
      have hstep : ∀ r, isFreshAt now (a :: r) (.dir rn rmt cs) =
          (match findChild cs a with
            | some c => isFreshAt now r c
            | none => false) := by
        intro r
        cases hfc : findChild cs a <;> simp [isFreshAt, nodeAt, hfc]
      cases hfc : findChild cs a with
      | none =>
        simp only [nodeAt, hfc]
        constructor
        · rintro ⟨_, c, hc, _⟩; cases hc
        · rintro ⟨_, h, _⟩; cases h
      | some c =>
        simp only [nodeAt, hfc]
        constructor
        · rintro ⟨hfab, c', hc', hmo, hnd⟩
          cases hc'
          rw [matchOk_iff] at hmo
          rcases hmo with ⟨⟨n', mtd, cs', hdir, hfr⟩, hall⟩
          refine ⟨hfab, hnd, ⟨n', mtd, cs', ?_, hfr⟩, fun r d hr hd => ?_⟩
          · rw [hdir] at hnd; cases hnd; rfl
          · rw [hstep r, hfc]
            exact hall r d hr hd
        · rintro ⟨hfab, hnd, ⟨n', mtd, cs', hdir, hfr⟩, hall⟩
          refine ⟨hfab, c, rfl, ?_, hnd⟩
          rw [matchOk_iff]
          refine ⟨⟨n', mtd, cs', by rw [hnd, hdir], hfr⟩, fun r d hr hd => ?_⟩
          have := hall r d hr hd
          rw [hstep r, hfc] at this
          exact this

/-- Path form of `matched_pair_top_iff`. -/
theorem matched_paths_top_iff (now : Nat) (t : FsNode) (q : List String)
    (hwf : wfNode t = true) :
    q ∈ matchedPaths now t ↔
      (q ≠ [] ∧ fabDxfMatch q = true ∧
        (∃ n mtd cs', nodeAt q t = some (.dir n mtd cs') ∧ freshSignal now mtd = false) ∧
        ∀ r d, q = r ++ d → d ≠ [] → r ≠ [] → isFreshAt now r t = false) := by
  constructor
  · intro hq
    rcases List.mem_map.mp hq with ⟨⟨q', nd⟩, hmem, hfst⟩
    cases hfst
    rcases (matched_pair_top_iff now t q' nd hwf).mp hmem with ⟨h1, h2, h3, ⟨n, mtd, cs', hdir, hfr⟩, h5⟩
    exact ⟨h1, h2, ⟨n, mtd, cs', by rw [← hdir]; exact h3, hfr⟩, h5⟩
  · rintro ⟨h1, h2, ⟨n, mtd, cs', hdir, hfr⟩, h5⟩
    refine List.mem_map.mpr ⟨(q, .dir n mtd cs'), ?_, rfl⟩
    exact (matched_pair_top_iff now t q _ hwf).mpr
      ⟨h1, h2, hdir, ⟨n, mtd, cs', rfl, hfr⟩, h5⟩

/-! Lemmas about removing or replacing one child and about
`fs::remove_file`. -/

theorem findChild_eraseChild_ne {cs : List FsNode} {a b : String} (h : b ≠ a) :
    findChild (eraseChild cs a) b = findChild cs b := by
  induction cs with
  | nil => rfl
  | cons c₀ cs ih =>
    by_cases h₀ : c₀.name = a
    · have hcb : ¬ c₀.name = b := by rw [h₀]; exact fun hh => h hh.symm
      simp only [eraseChild, if_pos h₀, findChild, if_neg hcb]
    · simp only [eraseChild, if_neg h₀, findChild]
      split
      · rfl
      · exact ih

theorem findChild_eraseChild_self {cs : List FsNode} {a : String}
    (h : namesNodup cs = true) : findChild (eraseChild cs a) a = none := by
  induction cs with
  | nil => rfl
  | cons c₀ cs ih =>
    simp only [namesNodup, Bool.and_eq_true] at h
    by_cases h₀ : c₀.name = a
    · simp only [eraseChild, if_pos h₀]
      exact findChild_eq_none_of_nameNotIn (h₀ ▸ h.1)
    · simp only [eraseChild, if_neg h₀, findChild, if_neg h₀]
      exact ih h.2

theorem findChild_replaceChild_ne {cs : List FsNode} {a b : String} {c' : FsNode}
    (hab : b ≠ a) (hcn : c'.name = a) :
    findChild (replaceChild cs a c') b = findChild cs b := by
  induction cs with
  | nil => rfl
  | cons c₀ cs ih =>
    by_cases h₀ : c₀.name = a
    · have hcb : ¬ c₀.name = b := by rw [h₀]; exact fun hh => hab hh.symm
      have hc'b : ¬ c'.name = b := by rw [hcn]; exact fun hh => hab hh.symm
      simp only [replaceChild, if_pos h₀, findChild, if_neg hcb, if_neg hc'b]
    · simp only [replaceChild, if_neg h₀, findChild]
      split
      · rfl
      · exact ih

theorem findChild_replaceChild_self {cs : List FsNode} {a : String} {c c' : FsNode}
    (h : findChild cs a = some c) (hcn : c'.name = a) :
    findChild (replaceChild cs a c') a = some c' := by
  induction cs with
  | nil => simp [findChild] at h
  | cons c₀ cs ih =>
    by_cases h₀ : c₀.name = a
    · simp [replaceChild, if_pos h₀, findChild, hcn]
    · simp only [findChild, if_neg h₀] at h
      simp only [replaceChild, if_neg h₀, findChild, if_neg h₀]
      exact ih h

theorem removeFileAt_name : ∀ {p : List String} {t t' : FsNode},
    removeFileAt p t = some t' → t'.name = t.name := by
  intro p t t' h
  cases t with
  | file n => cases p <;> simp [removeFileAt] at h
  | dir n mt cs =>
    cases p with
    | nil => simp [removeFileAt] at h
    | cons a rest =>
      cases hfc : findChild cs a with
      | none => simp [removeFileAt, hfc] at h
      | some c =>
        cases rest with
        | nil =>
          simp only [removeFileAt, hfc] at h
          cases c with
          | file m =>
            simp only [Option.some.injEq] at h
            rw [← h]
            rfl
          | dir m mtd csd => simp at h
        | cons b bs =>
          simp only [removeFileAt, hfc, Option.map_eq_some'] at h
          rcases h with ⟨c', _, rfl⟩
          rfl

theorem removeFileAt_isSome_iff : ∀ (p : List String) (t : FsNode),
    (removeFileAt p t).isSome = true ↔ (p ≠ [] ∧ statAt p t = some .fileStat) := by
  intro p
  induction p with
  | nil =>
    intro t
    cases t <;> simp [removeFileAt]
  | cons a rest ih =>
    intro t
    cases t with
    | file n => simp [removeFileAt, statAt, nodeAt]
    | dir n mt cs =>
      simp only [ne_eq, reduceCtorEq, not_false_eq_true, true_and]
      cases hfc : findChild cs a with
      | none => simp [removeFileAt, hfc, statAt, nodeAt]
      | some c =>
        cases rest with
        | nil =>
          cases c with
          | file m => simp [removeFileAt, hfc, statAt, nodeAt, statOf]
          | dir m mtd csd => simp [removeFileAt, hfc, statAt, nodeAt, statOf]
        | cons b bs =>
          have hiff := ih c
          simp only [ne_eq, reduceCtorEq, not_false_eq_true, true_and] at hiff
          cases hrm : removeFileAt (b :: bs) c with
          | none =>
            rw [hrm] at hiff
            simp only [removeFileAt, hfc, hrm, Option.map_none', Option.isSome_none,
              Bool.false_eq_true, false_iff]
            simp only [Option.isSome_none, Bool.false_eq_true, false_iff] at hiff
            simpa [statAt, nodeAt, hfc] using hiff
          | some u =>
            rw [hrm] at hiff
            simp only [removeFileAt, hfc, hrm, Option.map_some', Option.isSome_some,
              true_iff]
            simp only [Option.isSome_some, true_iff] at hiff
            simpa [statAt, nodeAt, hfc] using hiff

theorem removeFileAt_frame : ∀ (p : List String) (t t' : FsNode),
    wfNode t = true → removeFileAt p t = some t' →
      (statAt p t' = none ∧ ∀ q, q ≠ p → statAt q t' = statAt q t) := by
  intro p
  induction p with
  | nil =>
    intro t t' _ h
    cases t <;> simp [removeFileAt] at h
  | cons a rest ih =>
    intro t t' hwf h
    cases t with
    | file n => simp [removeFileAt] at h
    | dir n mt cs =>
      simp only [wfNode, Bool.and_eq_true] at hwf
      cases hfc : findChild cs a with
      | none => simp [removeFileAt, hfc] at h
      | some c =>
        cases rest with
        | nil =>
          simp only [removeFileAt, hfc] at h
          cases c with
          | dir m mtd csd => simp at h
          | file m =>
            simp only [Option.some.injEq] at h
            subst h
            refine ⟨by simp [statAt, nodeAt, findChild_eraseChild_self hwf.1], ?_⟩
            intro q hq
            cases q with
            | nil => rfl
            | cons x xs =>
              by_cases hxa : x = a
              · subst hxa
                cases xs with
                | nil => exact absurd rfl hq
                | cons y ys =>
                  simp [statAt, nodeAt, findChild_eraseChild_self hwf.1, hfc]
              · simp [statAt, nodeAt, findChild_eraseChild_ne hxa]
        | cons b bs =>
          simp only [removeFileAt, hfc, Option.map_eq_some'] at h
          rcases h with ⟨c', hrm, rfl⟩
          have hcn : c'.name = a := by
            rw [removeFileAt_name hrm]
            exact findChild_name hfc
          have hwfc : wfNode c = true := wfList_mem hwf.2 (findChild_mem hfc)
          rcases ih c c' hwfc hrm with ⟨ih1, ih2⟩
          refine ⟨?_, ?_⟩
          · simp only [statAt, nodeAt, findChild_replaceChild_self hfc hcn]
            simpa [statAt] using ih1
          · intro q hq
            cases q with
            | nil => rfl
            | cons x xs =>
              by_cases hxa : x = a
              · subst hxa
                have hxs : xs ≠ b :: bs := fun hh => hq (by rw [hh])
                simp only [statAt, nodeAt, findChild_replaceChild_self hfc hcn, hfc]
                simpa [statAt] using ih2 xs hxs
              · simp [statAt, nodeAt, findChild_replaceChild_ne hxa hcn]

/-! Well-formedness is preserved by file removal. -/

theorem nameNotIn_eraseChild {cs : List FsNode} {a b : String}
    (h : nameNotIn b cs = true) : nameNotIn b (eraseChild cs a) = true := by
  induction cs with
  | nil => rfl
  | cons c₀ cs ih =>
    simp only [nameNotIn, Bool.and_eq_true] at h
    by_cases h₀ : c₀.name = a
    · simp only [eraseChild, if_pos h₀]
      exact h.2
    · simp only [eraseChild, if_neg h₀, nameNotIn, Bool.and_eq_true]
      exact ⟨by simpa using h.1, ih h.2⟩

theorem namesNodup_eraseChild {cs : List FsNode} {a : String}
    (h : namesNodup cs = true) : namesNodup (eraseChild cs a) = true := by
  induction cs with
  | nil => rfl
  | cons c₀ cs ih =>
    simp only [namesNodup, Bool.and_eq_true] at h
    by_cases h₀ : c₀.name = a
    · simp only [eraseChild, if_pos h₀]
      exact h.2
    · simp only [eraseChild, if_neg h₀, namesNodup, Bool.and_eq_true]
      exact ⟨nameNotIn_eraseChild h.1, ih h.2⟩

theorem wfList_eraseChild {cs : List FsNode} {a : String}
    (h : wfList cs = true) : wfList (eraseChild cs a) = true := by
  induction cs with
  | nil => rfl
  | cons c₀ cs ih =>
    simp only [wfList, Bool.and_eq_true] at h
    by_cases h₀ : c₀.name = a
    · simp only [eraseChild, if_pos h₀]
      exact h.2
    · simp only [eraseChild, if_neg h₀, wfList, Bool.and_eq_true]
      exact ⟨h.1, ih h.2⟩

theorem nameNotIn_replaceChild {cs : List FsNode} {a b : String} {c' : FsNode}
    (hcn : c'.name = a) (h : nameNotIn b cs = true) :
    nameNotIn b (replaceChild cs a c') = true := by
  induction cs with
  | nil => rfl
  | cons c₀ cs ih =>
    simp only [nameNotIn, Bool.and_eq_true] at h
    by_cases h₀ : c₀.name = a
    · simp only [replaceChild, if_pos h₀, nameNotIn, Bool.and_eq_true]
      refine ⟨?_, h.2⟩
      have : ¬ c₀.name = b := by simpa using h.1
      simp only [Bool.not_eq_true', beq_eq_false_iff_ne]
      rw [hcn, ← h₀]
      exact fun hh => this hh
    · simp only [replaceChild, if_neg h₀, nameNotIn, Bool.and_eq_true]
      exact ⟨by simpa using h.1, ih h.2⟩

theorem namesNodup_replaceChild {cs : List FsNode} {a : String} {c' : FsNode}
    (hcn : c'.name = a) (h : namesNodup cs = true) :
    namesNodup (replaceChild cs a c') = true := by
  induction cs with
  | nil => rfl
  | cons c₀ cs ih =>
    simp only [namesNodup, Bool.and_eq_true] at h
    by_cases h₀ : c₀.name = a
    · simp only [replaceChild, if_pos h₀, namesNodup, Bool.and_eq_true]
      refine ⟨?_, h.2⟩
      rw [hcn, ← h₀]
      exact h.1
    · simp only [replaceChild, if_neg h₀, namesNodup, Bool.and_eq_true]
      exact ⟨nameNotIn_replaceChild hcn h.1, ih h.2⟩

theorem wfList_replaceChild {cs : List FsNode} {a : String} {c' : FsNode}
    (hc' : wfNode c' = true) (h : wfList cs = true) :
    wfList (replaceChild cs a c') = true := by
  induction cs with
  | nil => rfl
  | cons c₀ cs ih =>
    simp only [wfList, Bool.and_eq_true] at h
    by_cases h₀ : c₀.name = a
    · simp only [replaceChild, if_pos h₀, wfList, Bool.and_eq_true]
      exact ⟨hc', h.2⟩
    · simp only [replaceChild, if_neg h₀, wfList, Bool.and_eq_true]
      exact ⟨h.1, ih h.2⟩

theorem removeFileAt_wf : ∀ (p : List String) (t t' : FsNode),
    wfNode t = true → removeFileAt p t = some t' → wfNode t' = true := by
  intro p
  induction p with
  | nil =>
    intro t t' _ h
    cases t <;> simp [removeFileAt] at h
  | cons a rest ih =>
    intro t t' hwf h
    cases t with
    | file n => simp [removeFileAt] at h
    | dir n mt cs =>
      simp only [wfNode, Bool.and_eq_true] at hwf
      cases hfc : findChild cs a with
      | none => simp [removeFileAt, hfc] at h
      | some c =>
        cases rest with
        | nil =>
          simp only [removeFileAt, hfc] at h
          cases c with
          | dir m mtd csd => simp at h
          | file m =>
            simp only [Option.some.injEq] at h
            subst h
            simp only [wfNode, Bool.and_eq_true]
            exact ⟨namesNodup_eraseChild hwf.1, wfList_eraseChild hwf.2⟩
        | cons b bs =>
          simp only [removeFileAt, hfc, Option.map_eq_some'] at h
          rcases h with ⟨c', hrm, rfl⟩
          have hcn : c'.name = a := by
            rw [removeFileAt_name hrm]
            exact findChild_name hfc
          have hwfc : wfNode c = true := wfList_mem hwf.2 (findChild_mem hfc)
          simp only [wfNode, Bool.and_eq_true]
          exact ⟨namesNodup_replaceChild hcn hwf.1,
            wfList_replaceChild (ih c c' hwfc hrm) hwf.2⟩

/-! Lemmas about `remove_file` on one candidate pair. -/

theorem pair_counted_iff (s : FsNode) (p : List String) :
    (removeFilePair s p).counted = true ↔
      ∃ s₁ s₂, removeFileAt p s = some s₁ ∧
        removeFileAt (logSibling p) s₁ = some s₂ := by
  unfold removeFilePair
  cases h1 : removeFileAt p s with
  | none => simp [h1]
  | some s₁ =>
    cases h2 : removeFileAt (logSibling p) s₁ with
    | none => simp [h2]
    | some s₂ => simp [h2]

theorem pair_attempted_of_fail {s : FsNode} {p : List String}
    (h : removeFileAt p s = none) : (removeFilePair s p).attempted = [p] := by
  unfold removeFilePair
  rw [h]

theorem pair_state_of_fail {s : FsNode} {p : List String}
    (h : removeFileAt p s = none) :
    (removeFilePair s p).state = s ∧ (removeFilePair s p).counted = false := by
  unfold removeFilePair
  rw [h]
  exact ⟨rfl, rfl⟩

theorem pair_removed_sub {s : FsNode} {p q : List String}
    (h : q ∈ (removeFilePair s p).removed) : q = p ∨ q = logSibling p := by
  cases h1 : removeFileAt p s with
  | none => simp [removeFilePair, h1] at h
  | some s₁ =>
    cases h2 : removeFileAt (logSibling p) s₁ with
    | none =>
      simp only [removeFilePair, h1, h2, List.mem_singleton] at h
      exact Or.inl h
    | some s₂ =>
      simp only [removeFilePair, h1, h2, List.mem_cons, List.mem_singleton] at h
      simpa using h

theorem pair_mem_attempted (s : FsNode) (p : List String) :
    p ∈ (removeFilePair s p).attempted := by
  cases h1 : removeFileAt p s with
  | none => simp [removeFilePair, h1]
  | some s₁ =>
    cases h2 : removeFileAt (logSibling p) s₁ with
    | none => simp [removeFilePair, h1, h2]
    | some s₂ => simp [removeFilePair, h1, h2]

theorem pair_mem_removed_of_success {s : FsNode} {p : List String}
    (h : (removeFileAt p s).isSome = true) : p ∈ (removeFilePair s p).removed := by
  rcases Option.isSome_iff_exists.mp h with ⟨s₁, h1⟩
  cases h2 : removeFileAt (logSibling p) s₁ with
  | none => simp [removeFilePair, h1, h2]
  | some s₂ => simp [removeFilePair, h1, h2]

theorem pair_wf {s : FsNode} {p : List String} (hwf : wfNode s = true) :
    wfNode (removeFilePair s p).state = true := by
  cases h1 : removeFileAt p s with
  | none => simpa [removeFilePair, h1] using hwf
  | some s₁ =>
    have hwf₁ : wfNode s₁ = true := removeFileAt_wf p s s₁ hwf h1
    cases h2 : removeFileAt (logSibling p) s₁ with
    | none => simpa [removeFilePair, h1, h2] using hwf₁
    | some s₂ =>
      simpa [removeFilePair, h1, h2] using removeFileAt_wf _ s₁ s₂ hwf₁ h2

theorem pair_frame {s : FsNode} {p : List String} (hwf : wfNode s = true) :
    ∀ q, q ∉ (removeFilePair s p).removed →
      statAt q (removeFilePair s p).state = statAt q s := by
  intro q hq
  cases h1 : removeFileAt p s with
  | none => simp [removeFilePair, h1]
  | some s₁ =>
    have hwf₁ : wfNode s₁ = true := removeFileAt_wf p s s₁ hwf h1
    have hfr₁ := (removeFileAt_frame p s s₁ hwf h1).2
    cases h2 : removeFileAt (logSibling p) s₁ with
    | none =>
      simp only [removeFilePair, h1, h2, List.mem_singleton] at hq ⊢
      exact hfr₁ q hq
    | some s₂ =>
      simp only [removeFilePair, h1, h2, List.mem_cons, List.mem_singleton,
        not_or] at hq ⊢
      have hfr₂ := (removeFileAt_frame _ s₁ s₂ hwf₁ h2).2
      rw [hfr₂ q hq.2.1, hfr₁ q hq.1]

theorem pair_removed_none {s : FsNode} {p : List String} (hwf : wfNode s = true) :
    ∀ q, q ∈ (removeFilePair s p).removed →
      statAt q (removeFilePair s p).state = none := by
  intro q hq
  cases h1 : removeFileAt p s with
  | none => simp [removeFilePair, h1] at hq
  | some s₁ =>
    have hwf₁ : wfNode s₁ = true := removeFileAt_wf p s s₁ hwf h1
    have hfr₁ := removeFileAt_frame p s s₁ hwf h1
    cases h2 : removeFileAt (logSibling p) s₁ with
    | none =>
      simp only [removeFilePair, h1, h2, List.mem_singleton] at hq ⊢
      subst hq
      exact hfr₁.1
    | some s₂ =>
      simp only [removeFilePair, h1, h2, List.mem_cons, List.mem_singleton] at hq ⊢
      have hfr₂ := removeFileAt_frame _ s₁ s₂ hwf₁ h2
      rcases hq with rfl | rfl | hq0
      case inr.inr => cases hq0
      · by_cases hpl : q = logSibling q
        · rw [← hpl] at hfr₂
          exact hfr₂.1
        · rw [hfr₂.2 q hpl]
          exact hfr₁.1
      · exact hfr₂.1

theorem pair_stat_rel {s : FsNode} {p : List String} (hwf : wfNode s = true) :
    ∀ q, statAt q (removeFilePair s p).state = statAt q s ∨
      (statAt q (removeFilePair s p).state = none ∧ statAt q s = some .fileStat) := by
  intro q
  by_cases hq : q ∈ (removeFilePair s p).removed
  · right
    refine ⟨pair_removed_none hwf q hq, ?_⟩
    rcases pair_removed_sub hq with rfl | rfl
    · have h1 : (removeFileAt q s).isSome = true := by
        cases h1 : removeFileAt q s with
        | none => simp [removeFilePair, h1] at hq
        | some s₁ => simp
      exact ((removeFileAt_isSome_iff q s).mp h1).2
    · cases h1 : removeFileAt p s with
      | none => simp [removeFilePair, h1] at hq
      | some s₁ =>
        cases h2 : removeFileAt (logSibling p) s₁ with
        | none =>
          simp only [removeFilePair, h1, h2, List.mem_singleton] at hq
          have h1s : (removeFileAt p s).isSome = true := by rw [h1]; rfl
          have := ((removeFileAt_isSome_iff p s).mp h1s).2
          rw [hq]
          exact this
        | some s₂ =>
          have h2s : (removeFileAt (logSibling p) s₁).isSome = true := by rw [h2]; rfl
          have hst₁ := ((removeFileAt_isSome_iff _ s₁).mp h2s).2
          by_cases hpl : logSibling p = p
          · rw [hpl] at hst₁ ⊢
            have := (removeFileAt_frame p s s₁ hwf h1).1
            rw [this] at hst₁
            cases hst₁
          · have hfr₁ := (removeFileAt_frame p s s₁ hwf h1).2
            rw [hfr₁ _ hpl] at hst₁
            exact hst₁
  · left
    exact pair_frame hwf q hq

theorem lastSeg_append (d : List String) (nm : String) :
    lastSeg (d ++ [nm]) = some nm := by
  induction d with
  | nil => rfl
  | cons x d ih =>
    cases d with
    | nil => exact ih
    | cons y ds => exact ih

theorem logSibling_append (d : List String) (nm : String) :
    logSibling (d ++ [nm]) = d ++ [withExtLog nm] := by
  induction d with
  | nil => rfl
  | cons x d ih =>
    cases d with
    | nil =>
      show x :: logSibling [nm] = x :: [withExtLog nm]
      rw [show logSibling [nm] = logSibling ([] ++ [nm]) from rfl, ih]
      rfl
    | cons y ds =>
      show x :: logSibling ((y :: ds) ++ [nm]) = x :: ((y :: ds) ++ [withExtLog nm])
      rw [ih]

/-! Run-level lemmas: the deletion loop over a candidate list. -/

theorem run_wf (ps : List (List String)) : ∀ s, wfNode s = true →
    wfNode (runDeletions s ps).state = true := by
  induction ps with
  | nil => intro s h; exact h
  | cons p ps ih =>
    intro s h
    have := ih (removeFilePair s p).state (pair_wf h)
    simpa [runDeletions] using this

theorem run_frame (ps : List (List String)) : ∀ s, wfNode s = true →
    ∀ q, q ∉ (runDeletions s ps).removed →
      statAt q (runDeletions s ps).state = statAt q s := by
  induction ps with
  | nil => intro s _ q _; rfl
  | cons p ps ih =>
    intro s hwf q hq
    simp only [runDeletions, List.mem_append, not_or] at hq ⊢
    rw [ih (removeFilePair s p).state (pair_wf hwf) q hq.2]
    exact pair_frame hwf q hq.1

theorem run_none_stable (ps : List (List String)) : ∀ s, wfNode s = true →
    ∀ q, statAt q s = none →
      statAt q (runDeletions s ps).state = none := by
  induction ps with
  | nil => intro s _ q h; exact h
  | cons p ps ih =>
    intro s hwf q hq
    simp only [runDeletions]
    refine ih (removeFilePair s p).state (pair_wf hwf) q ?_
    rcases pair_stat_rel hwf (p := p) q with h | h
    · rw [h]; exact hq
    · exact h.1

theorem run_removed_none (ps : List (List String)) : ∀ s, wfNode s = true →
    ∀ q, q ∈ (runDeletions s ps).removed →
      statAt q (runDeletions s ps).state = none := by
  induction ps with
  | nil => intro s _ q h; simp [runDeletions] at h
  | cons p ps ih =>
    intro s hwf q hq
    simp only [runDeletions, List.mem_append] at hq ⊢
    rcases hq with hq | hq
    · exact run_none_stable ps _ (pair_wf hwf) q (pair_removed_none hwf q hq)
    · exact ih (removeFilePair s p).state (pair_wf hwf) q hq

theorem run_removed_sub (ps : List (List String)) : ∀ s q,
    q ∈ (runDeletions s ps).removed →
      q ∈ ps ∨ ∃ p, p ∈ ps ∧ q = logSibling p := by
  induction ps with
  | nil => intro s q h; simp [runDeletions] at h
  | cons p ps ih =>
    intro s q hq
    simp only [runDeletions, List.mem_append] at hq
    rcases hq with hq | hq
    · rcases pair_removed_sub hq with rfl | rfl
      · exact Or.inl (List.mem_cons_self _ _)
      · exact Or.inr ⟨p, List.mem_cons_self _ _, rfl⟩
    · rcases ih _ q hq with h | ⟨p', hp', rfl⟩
      · exact Or.inl (List.mem_cons_of_mem _ h)
      · exact Or.inr ⟨p', List.mem_cons_of_mem _ hp', rfl⟩

theorem run_processed (ps : List (List String)) : ∀ s q, wfNode s = true →
    q ∈ ps → q ≠ [] → statAt q s = some .fileStat →
      q ∈ (runDeletions s ps).removed := by
  induction ps with
  | nil => intro s q _ h; cases h
  | cons p ps ih =>
    intro s q hwf hmem hq0 hst
    simp only [runDeletions, List.mem_append]
    rcases List.mem_cons.mp hmem with rfl | hmem
    · left
      refine pair_mem_removed_of_success ?_
      rw [removeFileAt_isSome_iff]
      exact ⟨hq0, hst⟩
    · by_cases hin : q ∈ (removeFilePair s p).removed
      · exact Or.inl hin
      · right
        refine ih _ q (pair_wf hwf) hmem hq0 ?_
        rw [pair_frame hwf q hin]
        exact hst

theorem run_allfail (ps : List (List String)) : ∀ s,
    (∀ p ∈ ps, ¬ statAt p s = some .fileStat) →
      (runDeletions s ps).count = 0 ∧ (runDeletions s ps).state = s := by
  induction ps with
  | nil => intro s _; exact ⟨rfl, rfl⟩
  | cons p ps ih =>
    intro s h
    cases h1 : removeFileAt p s with
    | some u =>
      exfalso
      have : (removeFileAt p s).isSome = true := by rw [h1]; rfl
      exact h p (List.mem_cons_self _ _) ((removeFileAt_isSome_iff p s).mp this).2
    | none =>
      rcases pair_state_of_fail h1 with ⟨hstate, hcnt⟩
      have hrest := ih s (fun p' hp' => h p' (List.mem_cons_of_mem _ hp'))
      constructor
      · simp only [runDeletions, hcnt, hstate]
        simpa using hrest.1
      · simp only [runDeletions, hstate]
        exact hrest.2

theorem run_attempted (ps : List (List String)) : ∀ s q, q ∈ ps →
    q ∈ (runDeletions s ps).attempted := by
  induction ps with
  | nil => intro s q h; cases h
  | cons p ps ih =>
    intro s q hq
    simp only [runDeletions, List.mem_append]
    rcases List.mem_cons.mp hq with rfl | hq
    · exact Or.inl (pair_mem_attempted _ _)
    · exact Or.inr (ih _ q hq)

/-! Counting `.dxf` files: each counted pair removes one. -/

theorem dxfCount_eraseChild : ∀ {cs : List FsNode} {a : String} {c : FsNode},
    findChild cs a = some c →
      dxfCountAll (eraseChild cs a) + dxfFileCount c = dxfCountAll cs := by
  intro cs a c h
  induction cs with
  | nil => simp [findChild] at h
  | cons c₀ cs ih =>
    by_cases h₀ : c₀.name = a
    · simp only [findChild, if_pos h₀, Option.some.injEq] at h
      subst h
      simp only [eraseChild, if_pos h₀, dxfCountAll]
      omega
    · simp only [findChild, if_neg h₀] at h
      simp only [eraseChild, if_neg h₀, dxfCountAll]
      have := ih h
      omega

theorem dxfCount_replaceChild : ∀ {cs : List FsNode} {a : String} {c : FsNode}
    (c' : FsNode), findChild cs a = some c →
      dxfCountAll (replaceChild cs a c') + dxfFileCount c =
        dxfCountAll cs + dxfFileCount c' := by
  intro cs a c c' h
  induction cs with
  | nil => simp [findChild] at h
  | cons c₀ cs ih =>
    by_cases h₀ : c₀.name = a
    · simp only [findChild, if_pos h₀, Option.some.injEq] at h
      subst h
      simp only [replaceChild, if_pos h₀, dxfCountAll]
      omega
    · simp only [findChild, if_neg h₀] at h
      simp only [replaceChild, if_neg h₀, dxfCountAll]
      have := ih h
      omega

theorem removeFileAt_dxfCount_le : ∀ (p : List String) (t t' : FsNode),
    removeFileAt p t = some t' → dxfFileCount t' ≤ dxfFileCount t := by
  intro p
  induction p with
  | nil => intro t t' h; cases t <;> simp [removeFileAt] at h
  | cons a rest ih =>
    intro t t' h
    cases t with
    | file n => simp [removeFileAt] at h
    | dir n mt cs =>
      cases hfc : findChild cs a with
      | none => simp [removeFileAt, hfc] at h
      | some c =>
        cases rest with
        | nil =>
          simp only [removeFileAt, hfc] at h
          cases c with
          | dir m mtd csd => simp at h
          | file m =>
            simp only [Option.some.injEq] at h
            subst h
            simp only [dxfFileCount]
            have := dxfCount_eraseChild hfc
            simp only [dxfFileCount] at this
            omega
        | cons b bs =>
          simp only [removeFileAt, hfc, Option.map_eq_some'] at h
          rcases h with ⟨c', hrm, rfl⟩
          have h1 := dxfCount_replaceChild c' hfc
          have h2 := ih c c' hrm
          simp only [dxfFileCount]
          omega

theorem removeFileAt_dxfCount_strict : ∀ (p : List String) (t t' : FsNode) (nm : String),
    removeFileAt p t = some t' → lastSeg p = some nm → endsDxf nm = true →
      dxfFileCount t' + 1 ≤ dxfFileCount t := by
  intro p
  induction p with
  | nil => intro t t' nm h; cases t <;> simp [removeFileAt] at h
  | cons a rest ih =>
    intro t t' nm h hlast hdx
    cases t with
    | file n => simp [removeFileAt] at h
    | dir n mt cs =>
      cases hfc : findChild cs a with
      | none => simp [removeFileAt, hfc] at h
      | some c =>
        cases rest with
        | nil =>
          simp only [lastSeg, Option.some.injEq] at hlast
          subst hlast
          simp only [removeFileAt, hfc] at h
          cases c with
          | dir m mtd csd => simp at h
          | file m =>
            simp only [Option.some.injEq] at h
            subst h
            have hm : m = a := findChild_name hfc
            subst hm
            have := dxfCount_eraseChild hfc
            simp only [dxfFileCount, if_pos hdx] at this ⊢
            omega
        | cons b bs =>
          have hlast' : lastSeg (b :: bs) = some nm := hlast
          simp only [removeFileAt, hfc, Option.map_eq_some'] at h
          rcases h with ⟨c', hrm, rfl⟩
          have h1 := dxfCount_replaceChild c' hfc
          have h2 := ih c c' nm hrm hlast' hdx
          simp only [dxfFileCount]
          omega

theorem pair_dxfCount_le (s : FsNode) (p : List String) :
    dxfFileCount (removeFilePair s p).state ≤ dxfFileCount s := by
  cases h1 : removeFileAt p s with
  | none => simp [removeFilePair, h1]
  | some s₁ =>
    have hle₁ := removeFileAt_dxfCount_le p s s₁ h1
    cases h2 : removeFileAt (logSibling p) s₁ with
    | none =>
      simp only [removeFilePair, h1, h2]
      exact hle₁
    | some s₂ =>
      have hle₂ := removeFileAt_dxfCount_le _ s₁ s₂ h2
      simp only [removeFilePair, h1, h2]
      omega

theorem pair_dxfCount_counted {s : FsNode} {p : List String} {nm : String}
    (hc : (removeFilePair s p).counted = true)
    (hlast : lastSeg p = some nm) (hdx : endsDxf nm = true) :
    dxfFileCount (removeFilePair s p).state + 1 ≤ dxfFileCount s := by
  rcases (pair_counted_iff s p).mp hc with ⟨s₁, s₂, h1, h2⟩
  have hs₁ := removeFileAt_dxfCount_strict p s s₁ nm h1 hlast hdx
  have hs₂ := removeFileAt_dxfCount_le _ s₁ s₂ h2
  simp only [removeFilePair, h1, h2]
  omega

theorem run_count_bound (ps : List (List String)) : ∀ s,
    (∀ p ∈ ps, ∃ nm, lastSeg p = some nm ∧ endsDxf nm = true) →
      (runDeletions s ps).count ≤ dxfFileCount s := by
  induction ps with
  | nil => intro s _; simp [runDeletions]
  | cons p ps ih =>
    intro s h
    have hrest := ih (removeFilePair s p).state
      (fun p' hp' => h p' (List.mem_cons_of_mem _ hp'))
    simp only [runDeletions]
    by_cases hc : (removeFilePair s p).counted = true
    · rcases h p (List.mem_cons_self _ _) with ⟨nm, hlast, hdx⟩
      have := pair_dxfCount_counted hc hlast hdx
      rw [if_pos hc]
      omega
    · rw [if_neg hc]
      have := pair_dxfCount_le s p
      omega

/-! Candidate lists of the inner `*.dxf` scan. -/

theorem mem_addParent {p q : List String} {ns : List String} :
    q ∈ addParent p ns ↔ ∃ nm, nm ∈ ns ∧ q = p ++ [nm] := by
  induction ns with
  | nil => simp [addParent]
  | cons n ns ih =>
    simp only [addParent, List.mem_cons, ih]
    constructor
    · rintro (rfl | ⟨nm, hnm, rfl⟩)
      · exact ⟨n, Or.inl rfl, rfl⟩
      · exact ⟨nm, Or.inr hnm, rfl⟩
    · rintro ⟨nm, hnm | hnm, rfl⟩
      · rw [hnm]; exact Or.inl rfl
      · exact Or.inr ⟨nm, hnm, rfl⟩

theorem mem_dxfNames {cs : List FsNode} {nm : String} :
    nm ∈ dxfNames cs ↔ ((∃ c, c ∈ cs ∧ c.name = nm) ∧ endsDxf nm = true) := by
  induction cs with
  | nil => simp [dxfNames]
  | cons c₀ cs ih =>
    simp only [dxfNames]
    by_cases h₀ : endsDxf c₀.name = true
    · simp only [if_pos h₀, List.mem_cons, ih]
      constructor
      · rintro (rfl | ⟨⟨c, hc, rfl⟩, hdx⟩)
        · exact ⟨⟨c₀, Or.inl rfl, rfl⟩, h₀⟩
        · exact ⟨⟨c, Or.inr hc, rfl⟩, hdx⟩
      · rintro ⟨⟨c, hc, rfl⟩, hdx⟩
        rcases hc with rfl | hc
        · exact Or.inl rfl
        · exact Or.inr ⟨⟨c, hc, rfl⟩, hdx⟩
    · simp only [if_neg h₀, List.mem_cons, ih]
      constructor
      · rintro ⟨⟨c, hc, rfl⟩, hdx⟩
        exact ⟨⟨c, Or.inr hc, rfl⟩, hdx⟩
      · rintro ⟨⟨c, hc, rfl⟩, hdx⟩
        rcases hc with rfl | hc
        · exact absurd hdx h₀
        · exact ⟨⟨c, hc, rfl⟩, hdx⟩

theorem mem_candList {prs : List (List String × FsNode)} {q : List String} :
    q ∈ candList prs ↔ ∃ pd, pd ∈ prs ∧ q ∈ dirCandidates pd.1 pd.2 := by
  induction prs with
  | nil =>
    simp only [candList]
    constructor
    · intro h
      exact absurd h (List.not_mem_nil q)
    · rintro ⟨pd, hpd, _⟩
      exact absurd hpd (List.not_mem_nil pd)
  | cons pd prs ih =>
    simp only [candList, List.mem_append, ih]
    constructor
    · rintro (h | ⟨pd', hpd', hq⟩)
      · exact ⟨pd, List.mem_cons_self _ _, h⟩
      · exact ⟨pd', List.mem_cons_of_mem _ hpd', hq⟩
    · rintro ⟨pd', hpd', hq⟩
      rcases List.mem_cons.mp hpd' with rfl | hpd'
      · exact Or.inl hq
      · exact Or.inr ⟨pd', hpd', hq⟩

theorem isFreshAt_statAt (now : Nat) (r : List String) (t : FsNode) :
    isFreshAt now r t =
      (match statAt r t with
        | some (.dirStat mtd) => freshSignal now mtd
        | _ => false) := by
  unfold isFreshAt statAt
  cases nodeAt r t with
  | none => rfl
  | some u => cases u <;> rfl

/-- Characterisation of the deletion candidates of one run: exactly the
existing entries one level below a matched directory whose name matches
`*.dxf`. -/
theorem sweepCandidates_iff (now : Nat) (t : FsNode) (q : List String)
    (hwf : wfNode t = true) :
    q ∈ sweepCandidates now t ↔
      ∃ d nm, q = d ++ [nm] ∧ d ∈ matchedPaths now t ∧ endsDxf nm = true ∧
        (statAt q t).isSome = true := by
  unfold sweepCandidates
  rw [mem_candList]
  constructor
  · rintro ⟨⟨d, nd⟩, hpd, hq⟩
    cases nd with
    | file m => simp [dirCandidates] at hq
    | dir m mtd cs' =>
      simp only [dirCandidates] at hq
      rcases mem_addParent.mp hq with ⟨nm, hnm, rfl⟩
      rcases mem_dxfNames.mp hnm with ⟨⟨c, hc, hcn⟩, hdx⟩
      have hpair := (matched_pair_top_iff now t d _ hwf).mp hpd
      refine ⟨d, nm, rfl, List.mem_map.mpr ⟨(d, .dir m mtd cs'), hpd, rfl⟩, hdx, ?_⟩
      rcases findChild_isSome_of_mem hc with ⟨c', hc'⟩
      rw [hcn] at hc'
      simp [statAt, nodeAt_append, hpair.2.2.1, nodeAt, hc']
  · rintro ⟨d, nm, rfl, hd, hdx, hstat⟩
    rcases List.mem_map.mp hd with ⟨⟨d', nd⟩, hpd, hfst⟩
    cases hfst
    have hpair := (matched_pair_top_iff now t d' nd hwf).mp hpd
    rcases hpair.2.2.2.1 with ⟨n, mtd, cs', rfl, _⟩
    refine ⟨(d', .dir n mtd cs'), hpd, ?_⟩
    simp only [dirCandidates]
    rw [mem_addParent]
    refine ⟨nm, ?_, rfl⟩
    rw [mem_dxfNames]
    simp only [statAt, nodeAt_append, hpair.2.2.1, Option.some_bind, nodeAt] at hstat
    cases hfc : findChild cs' nm with
    | none => rw [hfc] at hstat; simp at hstat
    | some c =>
      exact ⟨⟨c, findChild_mem hfc, findChild_name hfc⟩, hdx⟩

/-- Matched directories survive file deletions: a path matched on a
state reached by removing files was matched on the original state. -/
theorem matched_transfer (now : Nat) (t t₂ : FsNode)
    (hwf : wfNode t = true) (hwf₂ : wfNode t₂ = true)
    (hrel : ∀ r, statAt r t₂ = statAt r t ∨
      (statAt r t₂ = none ∧ statAt r t = some .fileStat)) :
    ∀ q, q ∈ matchedPaths now t₂ → q ∈ matchedPaths now t := by
  intro q hq
  rcases (matched_paths_top_iff now t₂ q hwf₂).mp hq with
    ⟨hne, hfab, ⟨n, mtd, cs', hdir, hfr⟩, hpre⟩
  rw [matched_paths_top_iff now t q hwf]
  have hstat₂ : statAt q t₂ = some (.dirStat mtd) := by
    simp [statAt, hdir, statOf]
  have hstat : statAt q t = some (.dirStat mtd) := by
    rcases hrel q with h | ⟨h, _⟩
    · rw [← h]; exact hstat₂
    · rw [h] at hstat₂; cases hstat₂
  refine ⟨hne, hfab, ?_, ?_⟩
  · rcases hnode : nodeAt q t with _ | u
    · simp [statAt, hnode] at hstat
    · cases u with
      | file m => simp [statAt, hnode, statOf] at hstat
      | dir n'' mtd'' cs'' =>
        simp only [statAt, hnode, Option.map_some', statOf, Option.some.injEq,
          FsStat.dirStat.injEq] at hstat
        exact ⟨n'', mtd, cs'', by rw [hstat], hfr⟩
  · intro r d hr hd hrne
    have hfr₂ := hpre r d hr hd hrne
    rcases hrel r with h | ⟨h1, h2⟩
    · rw [isFreshAt_statAt] at hfr₂ ⊢
      rw [← h]
      exact hfr₂
    · rw [isFreshAt_statAt, h2]

theorem run_stat_rel (ps : List (List String)) : ∀ s, wfNode s = true →
    ∀ q, statAt q (runDeletions s ps).state = statAt q s ∨
      (statAt q (runDeletions s ps).state = none ∧ statAt q s = some .fileStat) := by
  induction ps with
  | nil => intro s _ q; exact Or.inl rfl
  | cons p ps ih =>
    intro s hwf q
    have hpair := pair_stat_rel (p := p) hwf q
    have hrest := ih (removeFilePair s p).state (pair_wf hwf) q
    simp only [runDeletions]
    rcases hrest with h | ⟨h1, h2⟩
    · rcases hpair with h' | ⟨h1', h2'⟩
      · exact Or.inl (by rw [h, h'])
      · exact Or.inr ⟨by rw [h, h1'], h2'⟩
    · rcases hpair with h' | ⟨h1', h2'⟩
      · exact Or.inr ⟨h1, by rw [← h']; exact h2⟩
      · rw [h1'] at h2
        cases h2

theorem append_last_split {α : Type} : ∀ (f d : List α) (a : α) (c : List α),
    f ++ c = d ++ [a] → c ≠ [] → ∃ e, d = f ++ e := by
  intro f
  induction f with
  | nil => intro d a c _ _; exact ⟨d, rfl⟩
  | cons x f ih =>
    intro d a c h hc
    cases d with
    | nil =>
      simp only [List.cons_append, List.nil_append, List.cons.injEq] at h
      rcases h with ⟨rfl, h⟩
      exact absurd (List.append_eq_nil.mp h).2 hc
    | cons y d =>
      simp only [List.cons_append, List.cons.injEq] at h
      rcases h with ⟨rfl, h⟩
      rcases ih d a c h hc with ⟨e, rfl⟩
      exact ⟨e, rfl⟩

theorem fresh_prunes_vis {now : Nat} {t : FsNode} {p : List String}
    {n : String} {m : Nat} {cs : List FsNode}
    (hwf : wfNode t = true) (hp : p ≠ [])
    (hnode : nodeAt p t = some (.dir n (some m) cs))
    (hle : m ≤ now) (hage : now - m < SIXTY_DAYS) :
    ∀ q, IsUnder p q → q ≠ p → q ∉ visitedPaths now t := by
  have hfresh : isFreshAt now p t = true := by
    simp [isFreshAt, hnode, freshSignal, hle, hage]
  rintro q ⟨c, rfl⟩ hne hmem
  have hc : c ≠ [] := by
    intro hh
    rw [hh] at hne
    exact hne (by simp)
  rcases (vis_top_iff now t _ hwf).mp hmem with ⟨_, _, hall⟩
  have := hall p c rfl hc hp
  rw [hfresh] at this
  cases this

theorem fresh_prunes_mat {now : Nat} {t : FsNode} {p : List String}
    {n : String} {m : Nat} {cs : List FsNode}
    (hwf : wfNode t = true) (hp : p ≠ [])
    (hnode : nodeAt p t = some (.dir n (some m) cs))
    (hle : m ≤ now) (hage : now - m < SIXTY_DAYS) :
    ∀ q, IsUnder p q → q ∉ matchedPaths now t := by
  have hfs : freshSignal now (some m) = true := by
    simp [freshSignal, hle, hage]
  have hfresh : isFreshAt now p t = true := by
    simp [isFreshAt, hnode, hfs]
  rintro q ⟨c, rfl⟩ hmem
  rcases (matched_paths_top_iff now t _ hwf).mp hmem with
    ⟨_, _, ⟨n', mtd, cs', hdir, hfr⟩, hall⟩
  cases c with
  | nil =>
    rw [List.append_nil] at hdir
    rw [hnode] at hdir
    simp only [Option.some.injEq, FsNode.dir.injEq] at hdir
    rw [← hdir.2.1] at hfr
    rw [hfs] at hfr
    cases hfr
  | cons x xs =>
    have := hall p (x :: xs) rfl (by simp) hp
    rw [hfresh] at this
    cases this

/-! Claim theorems. -/

/-- C1: a `.dxf` candidate is counted toward the reported total iff the
removal of the candidate and of its `.log` sibling both succeed; the
reported count never exceeds the number of `*.dxf` files initially in
the tree; and when removing the candidate itself fails, the `.log`
removal is not attempted (the only attempted call is the candidate). -/
theorem C1_paired_count (now : Nat) (t s : FsNode) (p : List String) :
    (sweep now t).count ≤ dxfFileCount t ∧
    ((removeFilePair s p).counted = true ↔
      ∃ s₁ s₂, removeFileAt p s = some s₁ ∧
        removeFileAt (logSibling p) s₁ = some s₂) ∧
    (removeFileAt p s = none → (removeFilePair s p).attempted = [p]) := by
  refine ⟨?_, pair_counted_iff s p, fun h => pair_attempted_of_fail h⟩
  refine run_count_bound _ t ?_
  intro q hq
  rcases mem_candList.mp hq with ⟨⟨d, nd⟩, _, hqc⟩
  cases nd with
  | file m => simp [dirCandidates] at hqc
  | dir m mtd cs' =>
    simp only [dirCandidates] at hqc
    rcases mem_addParent.mp hqc with ⟨nm, hnm, rfl⟩
    exact ⟨nm, lastSeg_append d nm, (mem_dxfNames.mp hnm).2⟩

/-- C3: a directory strictly below the root whose modification time was
read successfully and whose elapsed age is strictly below sixty days
prunes its whole subtree: no proper descendant is visited, and neither
the directory nor any descendant appears in the match output. -/
theorem C3_fresh_prune (now : Nat) (t : FsNode) (p : List String)
    (n : String) (m : Nat) (cs : List FsNode)
    (hwf : wfNode t = true) (hp : p ≠ [])
    (hnode : nodeAt p t = some (.dir n (some m) cs))
    (hle : m ≤ now) (hage : now - m < SIXTY_DAYS) :
    (∀ q, IsUnder p q → q ≠ p → q ∉ visitedPaths now t) ∧
    (∀ q, IsUnder p q → q ∉ matchedPaths now t) :=
  ⟨fresh_prunes_vis hwf hp hnode hle hage,
   fresh_prunes_mat hwf hp hnode hle hage⟩

/-- C4: no path strictly below a directory whose modification time is
within the sixty-day retention window is ever removed by the sweep (in
particular no `.dxf` file beneath it is deleted). -/
theorem C4_no_premature_deletion (now : Nat) (t : FsNode) (p : List String)
    (n : String) (m : Nat) (cs : List FsNode)
    (hwf : wfNode t = true) (hp : p ≠ [])
    (hnode : nodeAt p t = some (.dir n (some m) cs))
    (hle : m ≤ now) (hage : now - m < SIXTY_DAYS) :
    ∀ q, IsUnder p q → q ≠ p → q ∉ (sweep now t).removed := by
  rintro q ⟨c, rfl⟩ hne hmem
  have hc : c ≠ [] := by
    intro hh
    rw [hh] at hne
    exact hne (by simp)
  have hda : ∃ d a, p ++ c = d ++ [a] ∧ d ∈ matchedPaths now t := by
    rcases run_removed_sub _ t _ hmem with hq | ⟨p', hp', heq2⟩
    · rcases (sweepCandidates_iff now t _ hwf).mp hq with ⟨d, nm, heq, hd, _, _⟩
      exact ⟨d, nm, heq, hd⟩
    · rcases (sweepCandidates_iff now t _ hwf).mp hp' with ⟨d, nm, heq, hd, _, _⟩
      rw [heq] at heq2
      rw [logSibling_append] at heq2
      exact ⟨d, withExtLog nm, heq2, hd⟩
  rcases hda with ⟨d, a, heq, hd⟩
  rcases append_last_split p d a c heq hc with ⟨e, rfl⟩
  exact fresh_prunes_mat hwf hp hnode hle hage _ ⟨e, rfl⟩ hd

/-- C5: when a candidate `.dxf` file exists but its `.log` sibling does
not, the `.dxf` file is deleted anyway, the pair is not counted, and
the run goes on to attempt every remaining candidate. -/
theorem C5_missing_log (t : FsNode) (p : List String)
    (hwf : wfNode t = true) (hp : p ≠ [])
    (hdxf : statAt p t = some .fileStat)
    (hlog : statAt (logSibling p) t = none) :
    ((removeFilePair t p).counted = false ∧
      statAt p (removeFilePair t p).state = none) ∧
    (∀ (s : FsNode) (ps : List (List String)) (q : List String),
      q ∈ ps → q ∈ (runDeletions s ps).attempted) := by
  have hsome : (removeFileAt p t).isSome = true :=
    (removeFileAt_isSome_iff p t).mpr ⟨hp, hdxf⟩
  rcases Option.isSome_iff_exists.mp hsome with ⟨t₁, h1⟩
  have hcf : (removeFilePair t p).counted = false := by
    cases hc : (removeFilePair t p).counted
    · rfl
    · exfalso
      rcases (pair_counted_iff t p).mp hc with ⟨s₁, s₂, h1', h2⟩
      rw [h1] at h1'
      cases h1'
      have h2s : (removeFileAt (logSibling p) t₁).isSome = true := by rw [h2]; rfl
      have hst := ((removeFileAt_isSome_iff _ t₁).mp h2s).2
      by_cases hpl : logSibling p = p
      · rw [hpl] at hst
        rw [(removeFileAt_frame p t t₁ hwf h1).1] at hst
        cases hst
      · rw [(removeFileAt_frame p t t₁ hwf h1).2 _ hpl] at hst
        rw [hlog] at hst
        cases hst
  exact ⟨⟨hcf, pair_removed_none hwf p (pair_mem_removed_of_success hsome)⟩,
    fun s ps q h => run_attempted ps s q h⟩

/-- C7: a directory whose metadata or modified time cannot be read
produces no prune signal: if it was visited, each of its children is
visited too, and if its path matches the glob it still appears in the
match output. -/
theorem C7_metadata_error_visits (now : Nat) (t : FsNode) (p : List String)
    (n : String) (cs : List FsNode)
    (hwf : wfNode t = true)
    (hnode : nodeAt p t = some (.dir n none cs))
    (hvis : p ∈ visitedPaths now t) :
    (∀ c ∈ cs, p ++ [c.name] ∈ visitedPaths now t) ∧
    (fabDxfMatch p = true → p ∈ matchedPaths now t) := by
  rcases (vis_top_iff now t p hwf).mp hvis with ⟨hne, hsome, hall⟩
  constructor
  · intro c hc
    rw [vis_top_iff now t _ hwf]
    refine ⟨by simp, ?_, ?_⟩
    · rcases findChild_isSome_of_mem hc with ⟨c', hc'⟩
      simp [nodeAt_append, hnode, nodeAt, hc']
    · intro r d hr hd hrne
      rcases append_last_split r p c.name d hr.symm hd with ⟨e, hpe⟩
      cases e with
      | nil =>
        rw [List.append_nil] at hpe
        rw [← hpe]
        simp [isFreshAt, hnode, freshSignal]
      | cons y ys =>
        exact hall r (y :: ys) hpe (by simp) hrne
  · intro hfab
    rw [matched_paths_top_iff now t p hwf]
    exact ⟨hne, hfab, ⟨n, none, cs, hnode, rfl⟩, hall⟩

/-- C10: a directory whose modification time lies in the future (so
that computing the elapsed age fails) produces no prune signal: if it
was visited, each of its children is visited too, and if its path
matches the glob it still appears in the match output. -/
theorem C10_future_mtime_visits (now : Nat) (t : FsNode) (p : List String)
    (n : String) (m : Nat) (cs : List FsNode)
    (hwf : wfNode t = true) (hm : now < m)
    (hnode : nodeAt p t = some (.dir n (some m) cs))
    (hvis : p ∈ visitedPaths now t) :
    (∀ c ∈ cs, p ++ [c.name] ∈ visitedPaths now t) ∧
    (fabDxfMatch p = true → p ∈ matchedPaths now t) := by
  have hnle : ¬ m ≤ now := by omega
  have hfs : freshSignal now (some m) = false := by
    simp [freshSignal, hnle]
  rcases (vis_top_iff now t p hwf).mp hvis with ⟨hne, hsome, hall⟩
  constructor
  · intro c hc
    rw [vis_top_iff now t _ hwf]
    refine ⟨by simp, ?_, ?_⟩
    · rcases findChild_isSome_of_mem hc with ⟨c', hc'⟩
      simp [nodeAt_append, hnode, nodeAt, hc']
    · intro r d hr hd hrne
      rcases append_last_split r p c.name d hr.symm hd with ⟨e, hpe⟩
      cases e with
      | nil =>
        rw [List.append_nil] at hpe
        rw [← hpe]
        simp [isFreshAt, hnode, hfs]
      | cons y ys =>
        exact hall r (y :: ys) hpe (by simp) hrne
  · intro hfab
    rw [matched_paths_top_iff now t p hwf]
    exact ⟨hne, hfab, ⟨n, some m, cs, hnode, hfs⟩, hall⟩

/-- C8: the sweep's only mutations are removals of candidate `.dxf`
paths and of their `.log` siblings; the metadata of every path it did
not remove is unchanged. -/
theorem C8_frame_only_removals (now : Nat) (t : FsNode) (hwf : wfNode t = true) :
    (∀ q, q ∈ (sweep now t).removed →
      q ∈ sweepCandidates now t ∨
        ∃ p, p ∈ sweepCandidates now t ∧ q = logSibling p) ∧
    (∀ q, q ∉ (sweep now t).removed →
      statAt q (sweep now t).state = statAt q t) :=
  ⟨fun q h => run_removed_sub _ t q h, fun q h => run_frame _ t hwf q h⟩

/-- C9: running the sweep a second time, immediately and with no
external changes, on the state the first run produced, reports a count
of zero. -/
theorem C9_idempotent (now : Nat) (t : FsNode) (hwf : wfNode t = true) :
    (sweep now ((sweep now t).state)).count = 0 := by
  have hwf' : wfNode (sweep now t).state = true := run_wf _ t hwf
  have hrel : ∀ q, statAt q (sweep now t).state = statAt q t ∨
      (statAt q (sweep now t).state = none ∧ statAt q t = some .fileStat) :=
    run_stat_rel (sweepCandidates now t) t hwf
  have hall : ∀ p ∈ sweepCandidates now (sweep now t).state,
      ¬ statAt p (sweep now t).state = some .fileStat := by
    intro q hq hstat
    rcases (sweepCandidates_iff now _ q hwf').mp hq with ⟨d, nm, rfl, hd, hdx, _⟩
    have hstatT : statAt (d ++ [nm]) t = some .fileStat := by
      rcases hrel (d ++ [nm]) with h | ⟨h1, _⟩
      · rw [← h]; exact hstat
      · rw [h1] at hstat; cases hstat
    have hdT : d ∈ matchedPaths now t :=
      matched_transfer now t _ hwf hwf' hrel d hd
    have hqT : (d ++ [nm]) ∈ sweepCandidates now t := by
      rw [sweepCandidates_iff now t _ hwf]
      exact ⟨d, nm, rfl, hdT, hdx, by rw [hstatT]; rfl⟩
    have hproc : (d ++ [nm]) ∈ (sweep now t).removed :=
      run_processed _ t _ hwf hqT (by simp) hstatT
    have hnone : statAt (d ++ [nm]) (sweep now t).state = none :=
      run_removed_none _ t hwf _ hproc
    rw [hnone] at hstat
    cases hstat
  exact (run_allfail _ _ hall).1

/-- C2 (amended): the inner scan of one run enumerates, and attempts to
delete, exactly the entries one level below a matched `DXF` directory
whose name matches `*.dxf` — not entries at greater depth. -/
theorem C2_inner_scan_amended (now : Nat) (t : FsNode) (q : List String)
    (hwf : wfNode t = true) :
    (q ∈ sweepCandidates now t ↔
      ∃ d nm, q = d ++ [nm] ∧ d ∈ matchedPaths now t ∧ endsDxf nm = true ∧
        (statAt q t).isSome = true) ∧
    (∀ q', q' ∈ sweepCandidates now t → q' ∈ (sweep now t).attempted) :=
  ⟨sweepCandidates_iff now t q hwf, fun q' h => run_attempted _ t q' h⟩

/-- C6 (amended): a path is selected as a candidate directory iff it is
a directory that resolves below the root, its segment sequence matches
`**/Fab/**/DXF` (a `Fab` segment strictly before a final `DXF`
segment), it carries no prune signal itself, and no proper nonempty
ancestor carries one. -/
theorem C6_selection_amended (now : Nat) (t : FsNode) (p : List String)
    (hwf : wfNode t = true) :
    p ∈ matchedPaths now t ↔
      (p ≠ [] ∧ fabDxfMatch p = true ∧
        (∃ n mtd cs, nodeAt p t = some (.dir n mtd cs) ∧
          freshSignal now mtd = false) ∧
        ∀ r d, p = r ++ d → d ≠ [] → r ≠ [] → isFreshAt now r t = false) :=
  matched_paths_top_iff now t p hwf

/-- C2 (counterexample): in `T2` the only matched directory is
`Fab/DXF`, and the file `Fab/DXF/sub/a.dxf` — a `.dxf` file at depth
two beneath it — is neither a deletion candidate nor ever attempted,
refuting "every file with extension `.dxf` at any depth". -/
theorem C2_counterexample :
    ["Fab", "DXF"] ∈ matchedPaths 7000000 T2 ∧
    statAt ["Fab", "DXF", "sub", "a.dxf"] T2 = some .fileStat ∧
    endsDxf ("a.dxf") = true ∧
    ["Fab", "DXF", "sub", "a.dxf"] ∉ sweepCandidates 7000000 T2 ∧
    ["Fab", "DXF", "sub", "a.dxf"] ∉ (sweep 7000000 T2).attempted := by
  refine ⟨by decide, rfl, by decide, by decide, by decide⟩

/-- C6 (counterexample): the directory `Fab/DXF/sub` of `T6` has `Fab`
followed later by `DXF` in its segments and nothing in `T6` is within
the retention window, yet it is not selected, because the glob requires
the final segment to be `DXF`. -/
theorem C6_counterexample :
    specFabThenDxf ["Fab", "DXF", "sub"] = true ∧
    (∃ n mtd cs, nodeAt ["Fab", "DXF", "sub"] T6 = some (.dir n mtd cs)) ∧
    ["Fab", "DXF", "sub"] ∉ matchedPaths 7000000 T6 := by
  refine ⟨by decide, ⟨"sub", some 0, [], rfl⟩, by decide⟩

/-! Witnesses. -/

theorem C1_paired_count_witness :
    (removeFilePair (FsNode.dir ("Jobs") (some 0) []) ["x.dxf"]).attempted = [["x.dxf"]] :=
  (C1_paired_count 7000000 (FsNode.dir ("Jobs") (some 0) [])
    (FsNode.dir ("Jobs") (some 0) []) ["x.dxf"]).2.2 rfl

theorem C2_inner_scan_amended_witness :
    ["Fab", "DXF", "b.dxf"] ∈ (sweep 7000000 T2b).attempted :=
  (C2_inner_scan_amended 7000000 T2b [] (by decide)).2 _ (by decide)

theorem C3_fresh_prune_witness :
    ["JobA", "Fab", "DXF"] ∉ visitedPaths 7000000 T3 ∧
    ["JobA", "Fab", "DXF"] ∉ matchedPaths 7000000 T3 :=
  ⟨(C3_fresh_prune 7000000 T3 ["JobA"] "JobA" 6999000
      [.dir ("Fab") (some 0) [.dir ("DXF") (some 0) [.file ("a.dxf"), .file ("a.log")]]]
      (by decide) (by decide) rfl (by decide) (by decide)).1
      ["JobA", "Fab", "DXF"] ⟨["Fab", "DXF"], rfl⟩ (by decide),
   (C3_fresh_prune 7000000 T3 ["JobA"] "JobA" 6999000
      [.dir ("Fab") (some 0) [.dir ("DXF") (some 0) [.file ("a.dxf"), .file ("a.log")]]]
      (by decide) (by decide) rfl (by decide) (by decide)).2
      ["JobA", "Fab", "DXF"] ⟨["Fab", "DXF"], rfl⟩⟩

theorem C4_no_premature_deletion_witness :
    ["JobA", "Fab", "DXF", "a.dxf"] ∉ (sweep 7000000 T3).removed :=
  (C4_no_premature_deletion 7000000 T3 ["JobA"] "JobA" 6999000
      [.dir ("Fab") (some 0) [.dir ("DXF") (some 0) [.file ("a.dxf"), .file ("a.log")]]]
      (by decide) (by decide) rfl (by decide) (by decide))
    ["JobA", "Fab", "DXF", "a.dxf"] ⟨["Fab", "DXF", "a.dxf"], rfl⟩ (by decide)

theorem C5_missing_log_witness :
    (removeFilePair T5 ["n.dxf"]).counted = false ∧
    statAt ["n.dxf"] (removeFilePair T5 ["n.dxf"]).state = none :=
  (C5_missing_log T5 ["n.dxf"] (by decide) (by decide) rfl rfl).1

theorem C6_selection_amended_witness :
    ["Fab", "DXF"] ∈ matchedPaths 7000000 T6 ∧ fabDxfMatch ["Fab", "DXF"] = true :=
  ⟨by decide, ((C6_selection_amended 7000000 T6 ["Fab", "DXF"] (by decide)).mp
    (by decide)).2.1⟩

theorem C7_metadata_error_visits_witness :
    ["Fab", "DXF", "b.dxf"] ∈ visitedPaths 7000000 T7 ∧
    ["Fab", "DXF"] ∈ matchedPaths 7000000 T7 :=
  ⟨(C7_metadata_error_visits 7000000 T7 ["Fab", "DXF"] "DXF" [.file ("b.dxf")]
      (by decide) rfl (by decide)).1 (.file ("b.dxf")) (List.mem_cons_self _ _),
   (C7_metadata_error_visits 7000000 T7 ["Fab", "DXF"] "DXF" [.file ("b.dxf")]
      (by decide) rfl (by decide)).2 (by decide)⟩

theorem C8_frame_only_removals_witness :
    statAt ["JobA"] (sweep 7000000 Tex).state = statAt ["JobA"] Tex :=
  (C8_frame_only_removals 7000000 Tex (by decide)).2 ["JobA"] (by decide)

theorem C9_idempotent_witness :
    (sweep 7000000 ((sweep 7000000 Tex).state)).count = 0 :=
  C9_idempotent 7000000 Tex (by decide)

theorem C10_future_mtime_visits_witness :
    ["Fab", "DXF", "c.dxf"] ∈ visitedPaths 7000000 T10 ∧
    ["Fab", "DXF"] ∈ matchedPaths 7000000 T10 :=
  ⟨(C10_future_mtime_visits 7000000 T10 ["Fab", "DXF"] "DXF" 8000000 [.file ("c.dxf")]
      (by decide) (by decide) rfl (by decide)).1 (.file ("c.dxf")) (List.mem_cons_self _ _),
   (C10_future_mtime_visits 7000000 T10 ["Fab", "DXF"] "DXF" 8000000 [.file ("c.dxf")]
      (by decide) (by decide) rfl (by decide)).2 (by decide)⟩

end RemoveDxf
